import Mathlib

/-!
# Verification of the pisoprinter admission-control core

Shallow embedding of the three cooperating subsystems of the pisoprinter
kiosk server and proofs about them:

* the session queue / admission controller (`QueueManager` in
  queue-manager.js: `joinQueue`, `processQueue`, `checkSessionTimeout`,
  `updateActivity`, `completeSession`, `removeSession`, `getQueueStatus`,
  `cleanupExpiredSessions`, `canProceedToPayment`);
* the device bridge line-protocol handlers (`CoinListener.handleArduinoData`
  and `CoinListener.handleCoinDetection` in coinListener.js);
* the coin-claim ledger (the `claimedCoins` map of server.js with the
  `/api/claim-coin` endpoint, the lookup performed by `/api/arduino-status`,
  and its periodic cleanup interval), together with the admission gate of
  `POST /api/print`.

JavaScript `Map`s are modelled as association lists in insertion order,
timestamps (`Date.now()`) as integers passed explicitly to every operation,
and JS truthiness of the relevant values (`null`, `""`, `0` are falsy) is
modelled explicitly at each site where the source relies on it.
-/

namespace PisoPrinter

/-- JS truthiness of a nullable string: `null`/`undefined` and `""` are falsy. -/
def truthyId : Option String → Bool
  | none => false
  | some s => s != ""

/-- `Map.has` on an insertion-ordered association list. -/
def mapHas (m : List (String × α)) (k : String) : Bool :=
  m.any (fun p => p.1 == k)

/-- `Map.get` on an insertion-ordered association list. -/
def mapGet (m : List (String × α)) (k : String) : Option α :=
  (m.find? (fun p => p.1 == k)).map Prod.snd

/-- `Map.set`: updating an existing key keeps its insertion position,
a fresh key is appended at the end. -/
def mapSet (m : List (String × α)) (k : String) (v : α) : List (String × α) :=
  if mapHas m k then m.map (fun p => if p.1 == k then (k, v) else p)
  else m ++ [(k, v)]

/-- `Map.delete`. -/
def mapDelete (m : List (String × α)) (k : String) : List (String × α) :=
  m.filter (fun p => p.1 != k)

/-! ## Queue manager state (queue-manager.js, constructor lines 345-353) -/

inductive SessionStatus
  | waiting
  | active
deriving DecidableEq

/-- The `fileInfo` payload is opaque to the queue manager; the server passes
`{fileName, pageCount, timestamp}` (server.js lines 3475-3479). -/
structure FileInfo where
  fileName : String
  pageCount : Int
  timestamp : Int
deriving DecidableEq

/-- One entry of `this.sessions` (queue-manager.js lines 379-384; `status` and
`activatedAt` are mutated on activation, lines 390-391 and 432-433). -/
structure Session where
  id : String
  fileInfo : FileInfo
  joinedAt : Int
  status : SessionStatus
  activatedAt : Option Int
deriving DecidableEq

/-- The mutable state of the `QueueManager` singleton. -/
structure QMState where
  queue : List String
  activeSession : Option String
  sessions : List (String × Session)
  lastActivityTime : List (String × Int)
  completedSessions : Nat
deriving DecidableEq

/-- `this.sessionTimeout = 90000` (90 seconds, line 348). -/
def sessionTimeout : Int := 90000

/-- `this.MAX_QUEUE_SIZE = 10` (line 351). -/
def MAX_QUEUE_SIZE : Nat := 10

/-- `maxWaitTime = 10 * 60 * 1000` in `cleanupExpiredSessions` (line 552). -/
def maxWaitTime : Int := 10 * 60 * 1000

/-- The freshly constructed queue manager. -/
def QMState.init : QMState :=
  { queue := []
    activeSession := none
    sessions := []
    lastActivityTime := []
    completedSessions := 0 }

/-! ## Queue manager operations -/

/-- `getQueueStatus` result objects (lines 509-547). -/
inductive QueueStatus
  | notFound
  | activeSt (position : Int) (canProceed : Bool) (timeRemaining : Int)
  | waitingSt (position : Int) (canProceed : Bool) (estimatedWait : Int)
  | unknownSt (canProceed : Bool)
deriving DecidableEq

/-- JS `indexOf`: index of the first occurrence, `-1` if absent. -/
def jsIndexOf (l : List String) (x : String) : Int :=
  match l.findIdx? (fun y => y == x) with
  | some i => (i : Int)
  | none => -1

/-- `getQueueStatus(sessionId)`, lines 509-547.  For the active session the
reported `timeRemaining` is `Math.max(0, sessionTimeout - (now - (session.activatedAt || now)))`
(line 525); note that it is computed from `activatedAt`, with JS truthiness
making an `activatedAt` of `0` (or an absent one) fall back to `now`. -/
def getQueueStatus (now : Int) (sessionId : String) (s : QMState) : QueueStatus :=
  match mapGet s.sessions sessionId with
  | none => .notFound
  | some session =>
    if s.activeSession = some sessionId then
      let a : Int :=
        match session.activatedAt with
        | some v => if v = 0 then now else v
        | none => now
      .activeSt 0 true (max 0 (sessionTimeout - (now - a)))
    else
      let position : Int := jsIndexOf s.queue sessionId + 1
      if position > 0 then .waitingSt position false (position * 60)
      else .unknownSt false

/-- Result of `joinQueue`: either the queue-full rejection object
`{exists:false, success:false, error:…, queueFull:true}` (lines 370-375) or a
`getQueueStatus` result. -/
inductive JoinResult
  | queueFull
  | status (st : QueueStatus)
deriving DecidableEq

/-- Promotion to the active slot: shared tail of `joinQueue` (lines 388-397)
and `processQueue` (lines 431-439); sets `activeSession`, the session's
`status`/`activatedAt`, and `lastActivityTime`.  (The `setTimeout` arming
`checkSessionTimeout` is modelled as a separate event, see `Step`.) -/
def setActiveSession (now : Int) (sessionId : String) (session : Session) (s : QMState) : QMState :=
  { s with
    activeSession := some sessionId
    sessions := mapSet s.sessions sessionId
      { session with status := .active, activatedAt := some now }
    lastActivityTime := mapSet s.lastActivityTime sessionId now }

/-- `joinQueue(sessionId, fileInfo)`, lines 361-409.  Note the two truthiness
tests on `this.activeSession` (lines 368 and 387). -/
def joinQueue (now : Int) (sessionId : String) (fileInfo : FileInfo) (s : QMState) :
    QMState × JoinResult :=
  if mapHas s.sessions sessionId then
    (s, .status (getQueueStatus now sessionId s))
  else if s.queue.length ≥ MAX_QUEUE_SIZE ∧ truthyId s.activeSession then
    (s, .queueFull)
  else
    let session : Session :=
      { id := sessionId, fileInfo := fileInfo, joinedAt := now
        status := .waiting, activatedAt := none }
    let s1 : QMState := { s with sessions := mapSet s.sessions sessionId session }
    let s2 : QMState :=
      if ¬ truthyId s1.activeSession then
        setActiveSession now sessionId session s1
      else if sessionId ∈ s1.queue then s1
      else { s1 with queue := s1.queue ++ [sessionId] }
    (s2, .status (getQueueStatus now sessionId s2))

/-- `updateActivity(sessionId)`, lines 466-470. -/
def updateActivity (now : Int) (sessionId : String) (s : QMState) : QMState :=
  if s.activeSession = some sessionId then
    { s with lastActivityTime := mapSet s.lastActivityTime sessionId now }
  else s

/-- `canProceedToPayment(sessionId)`, lines 577-579. -/
def canProceedToPayment (sessionId : String) (s : QMState) : Bool :=
  s.activeSession == some sessionId

/-- The part of `removeSession` before the `processQueue` trigger
(lines 481-499): clear the active slot, splice out of the queue, delete the
session data; also returns `wasActive`. -/
def removeSessionCore (sessionId : String) (s : QMState) : QMState × Bool :=
  let wasActive : Bool := s.activeSession = some sessionId
  let s1 := if s.activeSession = some sessionId then { s with activeSession := none } else s
  let s2 := { s1 with queue := s1.queue.erase sessionId }
  let s3 := { s2 with
    sessions := mapDelete s2.sessions sessionId
    lastActivityTime := mapDelete s2.lastActivityTime sessionId }
  (s3, wasActive)

/-- The `session.status === 'waiting' && (now - session.joinedAt) > maxWaitTime`
test of `cleanupExpiredSessions` (line 555). -/
def isExpiredWaiting (now : Int) (session : Session) : Bool :=
  session.status = SessionStatus.waiting ∧ now - session.joinedAt > maxWaitTime

/-- The mutually recursive calls among `processQueue`, `removeSession` and
`cleanupExpiredSessions` (`removeSession` re-enters `processQueue`, which
starts with the cleanup, which calls `removeSession` on expired waiting
sessions). -/
inductive QMCall
  | pq (now : Int)
  | rm (now : Int) (sessionId : String) (processNext : Bool)
  | cl (now : Int)
  | clGo (now : Int) (keys : List String)

/-- Fuel-indexed interpreter for the mutually recursive trio
`processQueue` (lines 412-443) / `removeSession` (lines 480-506) /
`cleanupExpiredSessions` (lines 550-560).  The fuel only bounds the mutual
recursion; `defaultFuel` is always sufficient on the well-formed states the
system reaches (see the `exec` characterisation lemmas below).
`cleanupExpiredSessions` iterates over the keys present at entry and re-reads
each entry before testing it, which coincides with JS `Map` live iteration
because these operations never insert entries. -/
def exec : Nat → QMCall → QMState → QMState × Option String
  | 0, _, s => (s, none)
  | fuel+1, .pq now, s =>
    let sc := (exec fuel (.cl now) s).1
    match sc.queue with
    | [] => ({ sc with activeSession := none }, none)
    | nextSessionId :: rest =>
      let s1 : QMState := { sc with queue := rest }
      match mapGet s1.sessions nextSessionId with
      | none => exec fuel (.pq now) s1
      | some session => (setActiveSession now nextSessionId session s1, some nextSessionId)
  | fuel+1, .rm now sessionId processNext, s =>
    let pr := removeSessionCore sessionId s
    if pr.2 && processNext then exec fuel (.pq now) pr.1 else (pr.1, none)
  | fuel+1, .cl now, s =>
    exec fuel (.clGo now (s.sessions.map Prod.fst)) s
  | _+1, .clGo _ [], s => (s, none)
  | fuel+1, .clGo now (sessionId :: rest), s =>
    let s1 :=
      match mapGet s.sessions sessionId with
      | some session =>
        if isExpiredWaiting now session then (exec fuel (.rm now sessionId true) s).1 else s
      | none => s
    exec fuel (.clGo now rest) s1

/-- Fuel budget used by the wrappers; sufficient on well-formed states. -/
def defaultFuel (s : QMState) : Nat :=
  s.sessions.length + s.queue.length + 3

/-- `processQueue()`, lines 412-443. -/
def processQueue (now : Int) (s : QMState) : QMState × Option String :=
  exec (defaultFuel s) (.pq now) s

/-- `removeSession(sessionId)` with the default `processNext = true`,
lines 480-506. -/
def removeSession (now : Int) (sessionId : String) (s : QMState) : QMState :=
  (exec (defaultFuel s) (.rm now sessionId true) s).1

/-- `cleanupExpiredSessions()`, lines 550-560. -/
def cleanupExpiredSessions (now : Int) (s : QMState) : QMState :=
  (exec (defaultFuel s) (.cl now) s).1

/-- `completeSession(sessionId)`, lines 473-477. -/
def completeSession (now : Int) (sessionId : String) (s : QMState) : QMState :=
  removeSession now sessionId { s with completedSessions := s.completedSessions + 1 }

/-- What the `checkSessionTimeout` timer callback did: returned early, removed
the session, or re-armed itself (`setTimeout(…, sessionTimeout - timeSinceActivity)`). -/
inductive TimeoutAction
  | skip
  | removed
  | reschedule (delay : Int)
deriving DecidableEq

/-- `checkSessionTimeout(sessionId)`, lines 446-463.
`lastActivity = this.lastActivityTime.get(sessionId) || 0`. -/
def checkSessionTimeout (now : Int) (sessionId : String) (s : QMState) :
    QMState × TimeoutAction :=
  if s.activeSession ≠ some sessionId then (s, .skip)
  else
    let lastActivity : Int := (mapGet s.lastActivityTime sessionId).getD 0
    let timeSinceActivity := now - lastActivity
    if timeSinceActivity ≥ sessionTimeout then
      (removeSession now sessionId s, .removed)
    else
      (s, .reschedule (sessionTimeout - timeSinceActivity))

/-- Number of sessions whose `status` field is `'active'`. -/
def activeCount (s : QMState) : Nat :=
  (s.sessions.filter (fun p => p.2.status == SessionStatus.active)).length

/-! ## Coin-claim ledger (server.js lines 3633-3686 and 2768-2804) -/

/-- One entry of the `claimedCoins` map (lines 3651-3656). -/
structure ClaimEntry where
  timestamp : Int
  value : Int
  sessionId : String
  claimedAt : Int
deriving DecidableEq

abbrev ClaimedCoins := List (String × ClaimEntry)

/-- `coinKey = `${timestamp}_${value}`` (lines 3648 and 2776). -/
def coinKey (timestamp value : Int) : String :=
  toString timestamp ++ "_" ++ toString value

/-- Outcome of `POST /api/claim-coin`: 400 on a missing (falsy) field,
otherwise `{success:true, coinKey}`. -/
inductive ClaimResult
  | badRequest
  | ok (coinKey : String)
deriving DecidableEq

/-- `POST /api/claim-coin` (lines 3637-3673): reject when any of
`timestamp`, `value`, `sessionId` is falsy, else unconditionally
`claimedCoins.set(coinKey, {timestamp, value, sessionId, claimedAt: Date.now()})`.
The handler consults no other state: in particular it never reads the
queue manager or the last coin event. -/
def claimCoin (now : Int) (timestamp value : Int) (sessionId : String)
    (m : ClaimedCoins) : ClaimedCoins × ClaimResult :=
  if timestamp = 0 ∨ value = 0 ∨ sessionId = "" then (m, .badRequest)
  else
    let key := coinKey timestamp value
    (mapSet m key
      { timestamp := timestamp, value := value, sessionId := sessionId, claimedAt := now },
      .ok key)

/-- The lookup `claimedCoins.get(coinKey)` performed by
`GET /api/arduino-status` (lines 2776-2777). -/
def lookupClaim (timestamp value : Int) (m : ClaimedCoins) : Option ClaimEntry :=
  mapGet m (coinKey timestamp value)

/-- Body of the `setInterval` sweep (lines 3676-3686): delete every entry
with `claimedAt < now - 5 * 60 * 1000`. -/
def cleanupClaimedCoins (now : Int) (m : ClaimedCoins) : ClaimedCoins :=
  m.filter (fun p => ¬ p.2.claimedAt < now - 5 * 60 * 1000)

/-- The sweep period: `setInterval(…, 60000)` (line 3686). -/
def claimSweepIntervalMs : Int := 60000

/-- The claim TTL: `5 * 60 * 1000` (line 3678). -/
def claimTTLms : Int := 5 * 60 * 1000

/-! ## Device bridge line protocol (coinListener.js) -/

/-- An observer registered via `onCoinDetected` (line 267).  Its behaviour on
an invocation either returns normally or throws (`Except.error`). -/
structure CoinCallback where
  run : Int → String → Except String Unit

/-- Record of one observer invocation performed by `handleCoinDetection`:
the arguments it received and whether its exception was caught. -/
structure Invocation where
  value : Int
  coinType : String
  threw : Bool
deriving DecidableEq

/-- `this.coinValues` (lines 18-23). -/
def coinValues (coinType : String) : Option Int :=
  if coinType = "1" then some 1
  else if coinType = "5" then some 5
  else if coinType = "10" then some 10
  else if coinType = "20" then some 20
  else none

/-- `handleCoinDetection(coinType)` (lines 214-231): look the type up in
`coinValues`; if truthy, invoke every registered callback in registration
order with `(coinValue, coinType)`, catching each callback's exception
individually (lines 221-227); otherwise warn and invoke none.  The returned
list records the invocations performed, in order; the handler itself always
returns normally. -/
def handleCoinDetection (callbacks : List CoinCallback) (coinType : String) :
    List Invocation :=
  match coinValues coinType with
  | some coinValue =>
    if coinValue ≠ 0 then
      callbacks.map (fun cb =>
        match cb.run coinValue coinType with
        | .ok _ => { value := coinValue, coinType := coinType, threw := false }
        | .error _ => { value := coinValue, coinType := coinType, threw := true })
    else []
  | none => []

/-- JS `String.prototype.startsWith`. -/
def jsStartsWith (s pre : String) : Bool :=
  s.data.take pre.data.length == pre.data

/-- JS `String.prototype.substring(n)`. -/
def jsSubstring (s : String) (n : Nat) : String :=
  ⟨s.data.drop n⟩

/-- The whitespace stripped by `trim` on the ASCII lines at hand. -/
def jsIsWhitespace (c : Char) : Bool :=
  c = ' ' ∨ c = '\t' ∨ c = '\n' ∨ c = '\r'

/-- JS `String.prototype.trim`. -/
def jsTrim (s : String) : String :=
  ⟨((s.data.dropWhile jsIsWhitespace).reverse.dropWhile jsIsWhitespace).reverse⟩

/-- Classification of one received line by `handleArduinoData`
(lines 186-212); the `coin` case carries the observer invocations that
`handleCoinDetection` performed. -/
inductive ArduinoMsg
  | coin (invocations : List Invocation)
  | statusMsg (text : String)
  | errorMsg (text : String)
  | ready
  | unknown (line : String)
deriving DecidableEq

/-- `handleArduinoData(data)` (lines 186-212): prefix dispatch on the trimmed
line (the parser hands it `data.trim()`, line 163). -/
def handleArduinoData (callbacks : List CoinCallback) (data : String) : ArduinoMsg :=
  if jsStartsWith data "COIN:" then
    .coin (handleCoinDetection callbacks (jsTrim (jsSubstring data 5)))
  else if jsStartsWith data "STATUS:" then
    .statusMsg (jsTrim (jsSubstring data 7))
  else if jsStartsWith data "ERROR:" then
    .errorMsg (jsTrim (jsSubstring data 6))
  else if data = "READY" then
    .ready
  else
    .unknown data

/-! ## The print-endpoint admission gate (server.js lines 1052-1073) -/

/-- How far `POST /api/print` gets before printing. -/
inductive PrintDecision
  | noFile
  | notYourTurn
  | proceed
deriving DecidableEq

/-- The guards at the head of `POST /api/print`: `if (!req.file)` → 400
(line 1054), then `if (sessionId) { if (!queueManager.canProceedToPayment(sessionId))`
→ 403 `}` (lines 1066-1073); a falsy `sessionId` (absent or `""`) skips the
admission check entirely and the print proceeds. -/
def printGate (hasFile : Bool) (sessionId : Option String) (s : QMState) : PrintDecision :=
  if ¬ hasFile then .noFile
  else
    match sessionId with
    | none => .proceed
    | some sid =>
      if sid = "" then .proceed
      else if ¬ canProceedToPayment sid s then .notYourTurn
      else .proceed

/-! ## Server-level periodic tasks (server.js) -/

/-- The server state the periodic tasks can reach.  The only `setInterval`
registrations in server.js are `cleanupExpiredSavedFiles` and
`cleanupTempUploadFiles` (lines 575-576, filesystem only) and the
`claimedCoins` sweep (lines 3676-3686); none of them touches the queue
manager. -/
structure ServerState where
  qm : QMState
  claimedCoins : ClaimedCoins
deriving DecidableEq

/-- One firing of all registered interval tasks: the file sweeps act on the
filesystem only, so on the modelled state the combined effect is the
`claimedCoins` sweep. -/
def intervalTick (now : Int) (st : ServerState) : ServerState :=
  { st with claimedCoins := cleanupClaimedCoins now st.claimedCoins }

/-! ## Reachable states of the queue manager

The HTTP layer rejects falsy session ids before calling the queue manager
(server.js lines 3468, 3518, 3546 and the `if (sessionId)` guards at
lines 1066 and 1230), so every id reaching it is a non-empty string.
`processQueue` has no HTTP entry point and is invoked only from inside
`removeSession` (lines 502-505); `checkSessionTimeout` runs as the timer
callback armed on activation. -/

inductive Step : QMState → QMState → Prop
  | join (s : QMState) (now : Int) (sessionId : String) (fileInfo : FileInfo)
      (h : sessionId ≠ "") : Step s (joinQueue now sessionId fileInfo s).1
  | heartbeat (s : QMState) (now : Int) (sessionId : String) :
      Step s (updateActivity now sessionId s)
  | complete (s : QMState) (now : Int) (sessionId : String) (h : sessionId ≠ "") :
      Step s (completeSession now sessionId s)
  | leave (s : QMState) (now : Int) (sessionId : String) (h : sessionId ≠ "") :
      Step s (removeSession now sessionId s)
  | timeoutCheck (s : QMState) (now : Int) (sessionId : String) :
      Step s (checkSessionTimeout now sessionId s).1
  | cleanup (s : QMState) (now : Int) : Step s (cleanupExpiredSessions now s)

inductive Reachable : QMState → Prop
  | init : Reachable QMState.init
  | step {s s' : QMState} : Reachable s → Step s s' → Reachable s'

/-- Well-formedness invariant of the queue manager state (preserved even by
the intermediate states inside `removeSession`). -/
structure WF (s : QMState) : Prop where
  keysNodup : (s.sessions.map Prod.fst).Nodup
  keysNeEmpty : ∀ p ∈ s.sessions, p.1 ≠ ""
  activeNeEmpty : s.activeSession ≠ some ""
  activeUnique : ∀ p ∈ s.sessions, p.2.status = SessionStatus.active →
    s.activeSession = some p.1
  activeIn : ∀ a, s.activeSession = some a →
    ∃ sess, mapGet s.sessions a = some sess ∧ sess.status = SessionStatus.active
  queueSub : ∀ k ∈ s.queue,
    ∃ sess, mapGet s.sessions k = some sess ∧ sess.status = SessionStatus.waiting
  queueNodup : s.queue.Nodup
  queueBound : s.queue.length ≤ MAX_QUEUE_SIZE

/-- The additional invariant of the states the system rests in between
operations: a non-empty waiting queue implies an occupied active slot. -/
def Inv (s : QMState) : Prop :=
  WF s ∧ (s.queue ≠ [] → s.activeSession ≠ none)

/-! ## Recursion-free characterisation of the `exec` cluster on well-formed
states (used to reason about `removeSession` / `processQueue` /
`cleanupExpiredSessions` without fuel). -/

/-- What one `cleanupExpiredSessions` pass does on well-formed states: fold
over the keys, re-reading each entry and removing it (without re-entering
`processQueue`, since a waiting session is never the active one) when it is
an expired waiting session. -/
def cleanupSpecGo (now : Int) : List String → QMState → QMState
  | [], s => s
  | k :: rest, s =>
    let s1 :=
      match mapGet s.sessions k with
      | some session =>
        if isExpiredWaiting now session then (removeSessionCore k s).1 else s
      | none => s
    cleanupSpecGo now rest s1

def cleanupSpec (now : Int) (s : QMState) : QMState :=
  cleanupSpecGo now (s.sessions.map Prod.fst) s

/-- What the tail of `processQueue` does after the cleanup, on well-formed
states (the head of the queue is always a live session, so the
skip-missing-session recursion of lines 425-428 never fires). -/
def promoteHead (now : Int) (s : QMState) : QMState × Option String :=
  match s.queue with
  | [] => ({ s with activeSession := none }, none)
  | h :: rest =>
    match mapGet s.sessions h with
    | some session => (setActiveSession now h session { s with queue := rest }, some h)
    | none => ({ s with queue := rest }, none)

/-- `A` occurs strictly before `B` in the list. -/
def isBefore (A B : String) (q : List String) : Prop :=
  ∃ l1 l2 l3, q = l1 ++ (A :: (l2 ++ (B :: l3)))

/-- No session of the state is an expired waiting one (its cleanup sweep is
a no-op). -/
def noExpiredWaiting (now : Int) (s : QMState) : Prop :=
  ∀ p ∈ s.sessions, isExpiredWaiting now p.2 = false

/-- The queue-manager state reached inside `removeSession(sid)` after the
splice (lines 481-499) and the expiry sweep that the re-entered
`processQueue` begins with (lines 412-414): the promotion that follows takes
the head of this state's queue. -/
def postRemovalSweep (now : Int) (sid : String) (s : QMState) : QMState :=
  cleanupExpiredSessions now (removeSessionCore sid s).1

/-- The session record created by a fresh `joinQueue now sid fi`
(queue-manager.js lines 379-384). -/
def freshSession (now : Int) (sid : String) (fi : FileInfo) : Session :=
  { id := sid, fileInfo := fi, joinedAt := now
    status := SessionStatus.waiting, activatedAt := none }

/-- The state after `this.sessions.set(sessionId, {...})` on a fresh id. -/
def insertFresh (now : Int) (sid : String) (fi : FileInfo) (s : QMState) : QMState :=
  { s with sessions := mapSet s.sessions sid (freshSession now sid fi) }

/-! ## Concrete states used in witnesses and counterexamples -/

/-- A sample upload. -/
def sampleFile : FileInfo :=
  { fileName := "a.pdf", pageCount := 3, timestamp := 0 }

/-- Eleven sessions join: `s1` becomes active, `s2`…`s11` fill the queue to
`MAX_QUEUE_SIZE`. -/
def fullState : QMState :=
  (joinQueue 10 "s11" sampleFile
    (joinQueue 9 "s10" sampleFile
      (joinQueue 8 "s9" sampleFile
        (joinQueue 7 "s8" sampleFile
          (joinQueue 6 "s7" sampleFile
            (joinQueue 5 "s6" sampleFile
              (joinQueue 4 "s5" sampleFile
                (joinQueue 3 "s4" sampleFile
                  (joinQueue 2 "s3" sampleFile
                    (joinQueue 1 "s2" sampleFile
                      (joinQueue 0 "s1" sampleFile QMState.init).1).1).1).1).1).1).1).1).1).1).1

/-- `s1` joins at 1000 (becoming active) and heartbeats at 31000. -/
def heartbeatState : QMState :=
  updateActivity 31000 "s1" (joinQueue 1000 "s1" sampleFile QMState.init).1

/-- `a` joins at 1000 (active), `b` joins at 2000 (waiting). -/
def twoSessionState : QMState :=
  (joinQueue 2000 "b" sampleFile (joinQueue 1000 "a" sampleFile QMState.init).1).1

/-- `a` active, then `b` and `c` waiting in that order. -/
def threeSessionState : QMState :=
  (joinQueue 3000 "c" sampleFile twoSessionState).1

/-- `a` joins at 0 (active), `b` joins at 1 (waiting); by time 700000 the
waiting session `b` is more than ten minutes old. -/
def staleState : QMState :=
  (joinQueue 1 "b" sampleFile (joinQueue 0 "a" sampleFile QMState.init).1).1

/-- An observer that always throws. -/
def throwingObserver : CoinCallback :=
  { run := fun _ _ => Except.error "boom" }

/-- An observer that returns normally. -/
def quietObserver : CoinCallback :=
  { run := fun _ _ => Except.ok () }

/-! ## Association-list map lemmas -/

theorem mapGet_cons (p : String × α) (m : List (String × α)) (k : String) :
    mapGet (p :: m) k = if p.1 = k then some p.2 else mapGet m k := by
  by_cases h : p.1 = k <;> simp [mapGet, List.find?_cons, h]

theorem mapHas_iff {m : List (String × α)} {k : String} :
    mapHas m k = true ↔ (mapGet m k).isSome := by
  induction m with
  | nil => simp [mapHas, mapGet]
  | cons p m ih =>
    by_cases h : p.1 = k <;> simp [mapHas, mapGet_cons, h, List.any_cons] at ih ⊢
    exact ih

theorem mapHas_false {m : List (String × α)} {k : String} :
    mapHas m k = false ↔ mapGet m k = none := by
  rw [← Bool.not_eq_true, mapHas_iff, Option.isSome_iff_exists]
  cases mapGet m k <;> simp

theorem mapGet_mem {m : List (String × α)} {k : String} {v : α}
    (h : mapGet m k = some v) : (k, v) ∈ m := by
  induction m with
  | nil => simp [mapGet] at h
  | cons p m ih =>
    obtain ⟨a, b⟩ := p
    rw [mapGet_cons] at h
    by_cases hp : a = k
    · simp only [hp] at h ⊢
      simp at h
      rw [h]
      exact List.mem_cons_self _ _
    · simp only [hp, if_false] at h
      exact List.mem_cons_of_mem _ (ih h)

theorem mapGet_key_mem {m : List (String × α)} {k : String} {v : α}
    (h : mapGet m k = some v) : k ∈ m.map Prod.fst := by
  exact List.mem_map.2 ⟨(k, v), mapGet_mem h, rfl⟩

theorem mem_mapGet_of_nodup {m : List (String × α)} {k : String} {v : α}
    (hnd : (m.map Prod.fst).Nodup) (h : (k, v) ∈ m) : mapGet m k = some v := by
  induction m with
  | nil => simp at h
  | cons p m ih =>
    simp only [List.map_cons, List.nodup_cons] at hnd
    rcases List.mem_cons.1 h with h | h
    · rw [← h, mapGet_cons]
      simp
    · rw [mapGet_cons]
      have hk : k ∈ m.map Prod.fst := List.mem_map.2 ⟨(k, v), h, rfl⟩
      have hne : p.1 ≠ k := fun he => hnd.1 (he ▸ hk)
      simp only [hne, if_false]
      exact ih hnd.2 h

/-- `mapGet` distributes over append. -/
theorem mapGet_append (m1 m2 : List (String × α)) (k : String) :
    mapGet (m1 ++ m2) k =
      match mapGet m1 k with
      | some v => some v
      | none => mapGet m2 k := by
  induction m1 with
  | nil => simp [mapGet]
  | cons p m1 ih =>
    rw [List.cons_append, mapGet_cons, mapGet_cons]
    by_cases hp : p.1 = k <;> simp only [hp, if_true, if_false]
    exact ih

/-- The in-place update performed by `mapSet` on a present key. -/
theorem mapGet_overwrite_self {m : List (String × α)} {k : String} {v : α}
    (h : mapHas m k = true) :
    mapGet (m.map (fun p => if p.1 == k then (k, v) else p)) k = some v := by
  induction m with
  | nil => simp [mapHas] at h
  | cons p m ih =>
    by_cases hp : p.1 = k
    · rw [List.map_cons, show (if p.1 == k then (k, v) else p) = (k, v) by simp [hp],
        mapGet_cons]
      simp
    · rw [List.map_cons, show (if p.1 == k then (k, v) else p) = p by simp [hp],
        mapGet_cons]
      simp only [hp, if_false]
      have h' : mapHas m k = true := by
        have he : mapHas (p :: m) k = ((p.1 == k) || mapHas m k) := rfl
        rw [he] at h
        simpa [hp] using h
      exact ih h'

theorem mapGet_overwrite_ne {m : List (String × α)} {k k' : String} {v : α}
    (h : k' ≠ k) :
    mapGet (m.map (fun p => if p.1 == k then (k, v) else p)) k' = mapGet m k' := by
  induction m with
  | nil => rfl
  | cons p m ih =>
    by_cases hp : p.1 = k
    · rw [List.map_cons, show (if p.1 == k then (k, v) else p) = (k, v) by simp [hp],
        mapGet_cons, mapGet_cons]
      simp only [hp]
      have h1 : ¬ ((k, v).1 = k') := by simpa using fun he => h he.symm
      simp only [h1, if_false]
      exact ih
    · rw [List.map_cons, show (if p.1 == k then (k, v) else p) = p by simp [hp],
        mapGet_cons, mapGet_cons]
      by_cases hp' : p.1 = k' <;> simp only [hp', if_true, if_false]
      exact ih

theorem mapGet_mapSet_self (m : List (String × α)) (k : String) (v : α) :
    mapGet (mapSet m k v) k = some v := by
  unfold mapSet
  by_cases h : mapHas m k
  · rw [if_pos h]
    exact mapGet_overwrite_self h
  · rw [if_neg h, mapGet_append]
    rw [mapHas_false.1 (by simpa using h)]
    simp [mapGet_cons]

theorem mapGet_mapSet_ne (m : List (String × α)) {k k' : String} (v : α)
    (h : k' ≠ k) : mapGet (mapSet m k v) k' = mapGet m k' := by
  unfold mapSet
  by_cases hh : mapHas m k
  · rw [if_pos hh]
    exact mapGet_overwrite_ne h
  · rw [if_neg hh, mapGet_append]
    cases hg : mapGet m k' with
    | some w => rfl
    | none =>
      show mapGet [(k, v)] k' = none
      rw [mapGet_cons, if_neg (show ¬ ((k, v).1 = k') by simpa using fun he => h he.symm)]
      rfl

theorem mem_mapSet {m : List (String × α)} {k : String} {v : α} {p : String × α}
    (h : p ∈ mapSet m k v) : p = (k, v) ∨ (p ∈ m ∧ p.1 ≠ k) := by
  unfold mapSet at h
  by_cases hh : mapHas m k
  · simp only [hh, if_true, List.mem_map] at h
    obtain ⟨q, hq, he⟩ := h
    by_cases hqk : q.1 = k
    · left
      rw [← he]
      simp [hqk]
    · right
      rw [← he]
      rw [if_neg (by simp [hqk])]
      exact ⟨hq, hqk⟩
  · rw [if_neg hh] at h
    rcases List.mem_append.1 h with h | h
    · right
      refine ⟨h, fun he => ?_⟩
      have hx : mapHas m k = true := by
        simp only [mapHas, List.any_eq_true]
        exact ⟨p, h, by simp [he]⟩
      simp [hx] at hh
    · left
      simpa using h

theorem keys_overwrite (m : List (String × α)) (k : String) (v : α) :
    (m.map (fun p => if p.1 == k then (k, v) else p)).map Prod.fst = m.map Prod.fst := by
  induction m with
  | nil => rfl
  | cons p m ih =>
    by_cases hp : p.1 = k
    · rw [List.map_cons, show (if p.1 == k then (k, v) else p) = (k, v) by simp [hp]]
      simp only [List.map_cons]
      rw [ih]
      simp [hp]
    · rw [List.map_cons, show (if p.1 == k then (k, v) else p) = p by simp [hp]]
      simp only [List.map_cons]
      rw [ih]

theorem keys_mapSet (m : List (String × α)) (k : String) (v : α) :
    (mapSet m k v).map Prod.fst =
      if mapHas m k then m.map Prod.fst else m.map Prod.fst ++ [k] := by
  unfold mapSet
  by_cases hh : mapHas m k
  · rw [if_pos hh, if_pos hh]
    exact keys_overwrite m k v
  · rw [if_neg hh, if_neg hh]
    simp

theorem mem_mapDelete {m : List (String × α)} {k : String} {p : String × α} :
    p ∈ mapDelete m k ↔ p ∈ m ∧ p.1 ≠ k := by
  simp [mapDelete, List.mem_filter]

theorem mapDelete_sublist (m : List (String × α)) (k : String) :
    List.Sublist (mapDelete m k) m :=
  List.filter_sublist m

theorem mapGet_mapDelete_self (m : List (String × α)) (k : String) :
    mapGet (mapDelete m k) k = none := by
  induction m with
  | nil => rfl
  | cons p m ih =>
    unfold mapDelete at ih ⊢
    rw [List.filter_cons]
    by_cases hp : p.1 = k
    · rw [if_neg (by simp [hp])]
      exact ih
    · rw [if_pos (by simp [hp]), mapGet_cons]
      simp only [hp, if_false]
      exact ih

theorem mapGet_mapDelete_ne (m : List (String × α)) {k k' : String}
    (h : k' ≠ k) : mapGet (mapDelete m k) k' = mapGet m k' := by
  induction m with
  | nil => rfl
  | cons p m ih =>
    unfold mapDelete at ih ⊢
    rw [List.filter_cons]
    by_cases hp : p.1 = k
    · rw [if_neg (by simp [hp]), mapGet_cons]
      have hne : ¬ (p.1 = k') := by rw [hp]; exact fun he => h he.symm
      rw [if_neg hne]
      exact ih
    · rw [if_pos (by simp [hp]), mapGet_cons, mapGet_cons]
      by_cases hp' : p.1 = k' <;> simp only [hp', if_true, if_false]
      exact ih

/-! ## Basic facts about the queue-manager state -/

theorem removeSessionCore_queue (sid : String) (s : QMState) :
    (removeSessionCore sid s).1.queue = s.queue.erase sid := by
  unfold removeSessionCore
  by_cases h : s.activeSession = some sid <;> simp [h]

theorem removeSessionCore_sessions (sid : String) (s : QMState) :
    (removeSessionCore sid s).1.sessions = mapDelete s.sessions sid := by
  unfold removeSessionCore
  by_cases h : s.activeSession = some sid <;> simp [h]

theorem removeSessionCore_lastActivity (sid : String) (s : QMState) :
    (removeSessionCore sid s).1.lastActivityTime = mapDelete s.lastActivityTime sid := by
  unfold removeSessionCore
  by_cases h : s.activeSession = some sid <;> simp [h]

theorem removeSessionCore_active (sid : String) (s : QMState) :
    (removeSessionCore sid s).1.activeSession =
      if s.activeSession = some sid then none else s.activeSession := by
  unfold removeSessionCore
  by_cases h : s.activeSession = some sid <;> simp [h]

theorem removeSessionCore_wasActive (sid : String) (s : QMState) :
    (removeSessionCore sid s).2 = true ↔ s.activeSession = some sid := by
  unfold removeSessionCore
  simp

/-- Under well-formedness, the active session is never in the waiting queue. -/
theorem WF.active_not_in_queue {s : QMState} (hwf : WF s) {a : String}
    (ha : s.activeSession = some a) : a ∉ s.queue := by
  intro hmem
  obtain ⟨sw, hw, hws⟩ := hwf.queueSub a hmem
  obtain ⟨sa, haw, has⟩ := hwf.activeIn a ha
  rw [hw] at haw
  cases haw
  rw [hws] at has
  cases has

/-- Under well-formedness, truthiness of `activeSession` is just non-`null`-ness. -/
theorem WF.truthy_active {s : QMState} (hwf : WF s) :
    truthyId s.activeSession = true ↔ s.activeSession ≠ none := by
  cases h : s.activeSession with
  | none => simp [truthyId]
  | some a =>
    have : a ≠ "" := fun he => hwf.activeNeEmpty (he ▸ h)
    simp [truthyId, this]

/-- Under well-formedness with `activeSession = null`, no session has
status `'active'`. -/
theorem WF.no_active_of_none {s : QMState} (hwf : WF s)
    (h : s.activeSession = none) :
    ∀ p ∈ s.sessions, p.2.status = SessionStatus.active → False := by
  intro p hp hs
  have := hwf.activeUnique p hp hs
  rw [h] at this
  cases this

theorem removeSessionCore_wf {s : QMState} (hwf : WF s) (sid : String) :
    WF (removeSessionCore sid s).1 := by
  constructor
  · rw [removeSessionCore_sessions]
    exact ((mapDelete_sublist _ _).map Prod.fst).nodup hwf.keysNodup
  · rw [removeSessionCore_sessions]
    intro p hp
    exact hwf.keysNeEmpty p (mem_mapDelete.1 hp).1
  · rw [removeSessionCore_active]
    by_cases h : s.activeSession = some sid
    · simp [h]
    · simpa [h] using hwf.activeNeEmpty
  · rw [removeSessionCore_sessions, removeSessionCore_active]
    intro p hp hs
    obtain ⟨hp, hpk⟩ := mem_mapDelete.1 hp
    have ha := hwf.activeUnique p hp hs
    by_cases h : s.activeSession = some sid
    · rw [h] at ha
      cases ha
      exact absurd rfl hpk
    · rw [if_neg h]
      exact ha
  · rw [removeSessionCore_active]
    by_cases h : s.activeSession = some sid
    · simp [h]
    · rw [if_neg h]
      intro a ha
      obtain ⟨sess, hget, hst⟩ := hwf.activeIn a ha
      refine ⟨sess, ?_, hst⟩
      rw [removeSessionCore_sessions, mapGet_mapDelete_ne]
      · exact hget
      · intro he
        exact h (he ▸ ha)
  · rw [removeSessionCore_queue, removeSessionCore_sessions]
    intro k hk
    have hk' : k ∈ s.queue := (s.queue.erase_sublist sid).subset hk
    have hkne : k ≠ sid := by
      intro he
      exact (hwf.queueNodup.mem_erase_iff.1 hk).1 (he ▸ rfl)
    obtain ⟨sess, hget, hst⟩ := hwf.queueSub k hk'
    refine ⟨sess, ?_, hst⟩
    rw [mapGet_mapDelete_ne _ hkne]
    exact hget
  · rw [removeSessionCore_queue]
    exact hwf.queueNodup.erase sid
  · rw [removeSessionCore_queue]
    exact le_trans (s.queue.erase_sublist sid).length_le hwf.queueBound

/-- Promotion preserves well-formedness, provided no session currently has
status `'active'` and the promoted session exists and is outside the queue. -/
theorem setActive_wf {s : QMState} {h : String} {sess : Session} (now : Int)
    (hnd : (s.sessions.map Prod.fst).Nodup)
    (hne : ∀ p ∈ s.sessions, p.1 ≠ "")
    (hau : ∀ p ∈ s.sessions, p.2.status = SessionStatus.active → False)
    (hget : mapGet s.sessions h = some sess)
    (hq : ∀ k ∈ s.queue, ∃ sk, mapGet s.sessions k = some sk ∧
      sk.status = SessionStatus.waiting)
    (hqnd : s.queue.Nodup)
    (hqb : s.queue.length ≤ MAX_QUEUE_SIZE)
    (hnotin : h ∉ s.queue) :
    WF (setActiveSession now h sess s) := by
  have hhas : mapHas s.sessions h = true := mapHas_iff.2 (by simp [hget])
  have hkeys : (mapSet s.sessions h
      { sess with status := SessionStatus.active, activatedAt := some now }).map Prod.fst
      = s.sessions.map Prod.fst := by
    rw [keys_mapSet, if_pos hhas]
  have hhne : h ≠ "" := hne _ (mapGet_mem hget)
  constructor
  · show (mapSet _ _ _).map Prod.fst |>.Nodup
    rw [hkeys]; exact hnd
  · intro p hp
    rcases mem_mapSet hp with he | ⟨hp', _⟩
    · rw [he]; exact hhne
    · exact hne p hp'
  · show some h ≠ some ""
    simp [hhne]
  · intro p hp hs
    rcases mem_mapSet hp with he | ⟨hp', _⟩
    · rw [he]
      rfl
    · exact absurd hs (fun hs' => hau p hp' hs')
  · intro a ha
    have ha' : (some h : Option String) = some a := ha
    have hah : a = h := (Option.some.inj ha').symm
    subst hah
    exact ⟨_, mapGet_mapSet_self _ _ _, rfl⟩
  · intro k hk
    have hkq : k ∈ s.queue := hk
    obtain ⟨sk, hgk, hsk⟩ := hq k hkq
    have hkh : k ≠ h := fun he => hnotin (he ▸ hk)
    refine ⟨sk, ?_, hsk⟩
    show mapGet (mapSet _ _ _) k = some sk
    rw [mapGet_mapSet_ne _ _ hkh]
    exact hgk
  · exact hqnd
  · exact hqb

theorem set_active_none_eq {s : QMState} (hact : s.activeSession = none) :
    { s with activeSession := none } = s := by
  cases s with
  | mk q a ss la c =>
    dsimp only at hact
    subst hact
    rfl

theorem isExpiredWaiting_status {now : Int} {session : Session}
    (h : isExpiredWaiting now session = true) :
    session.status = SessionStatus.waiting := by
  unfold isExpiredWaiting at h
  exact (of_decide_eq_true h).1

theorem isExpiredWaiting_age {now : Int} {session : Session}
    (h : isExpiredWaiting now session = true) :
    now - session.joinedAt > maxWaitTime := by
  unfold isExpiredWaiting at h
  exact (of_decide_eq_true h).2

theorem WF_mk_of (s : QMState) (hwf : WF s) (hact : s.activeSession = none)
    (hq : s.queue = []) :
    WF { queue := [], activeSession := none, sessions := s.sessions,
         lastActivityTime := s.lastActivityTime,
         completedSessions := s.completedSessions } := by
  have he : QMState.mk [] none s.sessions s.lastActivityTime s.completedSessions = s := by
    cases s with
    | mk q a ss la c =>
      dsimp only at hact hq
      rw [hact, hq]
  rw [he]
  exact hwf

/-- The active session is never an expired waiting one. -/
theorem WF.not_active_of_waiting {s : QMState} (hwf : WF s) {k : String}
    {session : Session} (hget : mapGet s.sessions k = some session)
    (hw : session.status = SessionStatus.waiting) :
    s.activeSession ≠ some k := by
  intro ha
  obtain ⟨sess', hget', hst'⟩ := hwf.activeIn k ha
  rw [hget] at hget'
  cases hget'
  rw [hw] at hst'
  cases hst'

/-- Well-formedness (and, where meaningful, the active slot) is preserved by
every branch of the `processQueue` / `removeSession` / `cleanupExpiredSessions`
cluster, at every fuel. -/
theorem exec_wf : ∀ fuel : Nat,
    (∀ now s, WF s → s.activeSession = none → WF (exec fuel (.pq now) s).1) ∧
    (∀ now sid pn s, WF s →
      WF (exec fuel (.rm now sid pn) s).1 ∧
      (s.activeSession ≠ some sid →
        (exec fuel (.rm now sid pn) s).1.activeSession = s.activeSession)) ∧
    (∀ now s, WF s →
      WF (exec fuel (.cl now) s).1 ∧
      (exec fuel (.cl now) s).1.activeSession = s.activeSession) ∧
    (∀ now keys s, WF s →
      WF (exec fuel (.clGo now keys) s).1 ∧
      (exec fuel (.clGo now keys) s).1.activeSession = s.activeSession) := by
  intro fuel
  induction fuel with
  | zero =>
    refine ⟨fun now s hwf _ => hwf, fun now sid pn s hwf => ⟨hwf, fun _ => rfl⟩,
      fun now s hwf => ⟨hwf, rfl⟩, fun now keys s hwf => ⟨hwf, rfl⟩⟩
  | succ fuel ih =>
    obtain ⟨ihpq, ihrm, ihcl, ihclGo⟩ := ih
    refine ⟨?_, ?_, ?_, ?_⟩
    · -- processQueue
      intro now s hwf hact
      obtain ⟨hclwf, hclact⟩ := ihcl now s hwf
      simp only [exec]
      cases hq : (exec fuel (.cl now) s).1.queue with
      | nil =>
        simp only [hq]
        exact WF_mk_of _ hclwf (hclact.trans hact) hq
      | cons h rest =>
        simp only [hq]
        have hh : h ∈ (exec fuel (.cl now) s).1.queue := by
          rw [hq]; exact List.mem_cons_self _ _
        obtain ⟨sess, hgets, hwait⟩ := hclwf.queueSub h hh
        have hgets' :
            mapGet ({ (exec fuel (.cl now) s).1 with queue := rest } : QMState).sessions h
              = some sess := hgets
        rw [hgets']
        have hqn : ((h :: rest : List String)).Nodup := hq ▸ hclwf.queueNodup
        refine setActive_wf now hclwf.keysNodup hclwf.keysNeEmpty
          (hclwf.no_active_of_none (hclact.trans hact)) hgets ?_ ?_ ?_ ?_
        · intro k hk
          exact hclwf.queueSub k (by rw [hq]; exact List.mem_cons_of_mem _ hk)
        · exact (List.nodup_cons.1 hqn).2
        · calc rest.length ≤ (h :: rest).length := by simp
            _ ≤ MAX_QUEUE_SIZE := hq ▸ hclwf.queueBound
        · exact (List.nodup_cons.1 hqn).1
    · -- removeSession
      intro now sid pn s hwf
      have hcorewf := removeSessionCore_wf hwf sid
      constructor
      · simp only [exec]
        by_cases hb : ((removeSessionCore sid s).2 && pn) = true
        · rw [if_pos hb]
          have hb' : (removeSessionCore sid s).2 = true ∧ pn = true := by simpa using hb
          have hwa : s.activeSession = some sid :=
            (removeSessionCore_wasActive sid s).1 hb'.1
          have hcact : (removeSessionCore sid s).1.activeSession = none := by
            rw [removeSessionCore_active, if_pos hwa]
          exact ihpq now _ hcorewf hcact
        · rw [if_neg hb]
          exact hcorewf
      · intro hna
        simp only [exec]
        have hwa : (removeSessionCore sid s).2 = false := by
          by_contra hc
          exact hna ((removeSessionCore_wasActive sid s).1 (by simpa using hc))
        rw [if_neg (by simp [hwa])]
        rw [removeSessionCore_active, if_neg hna]
    · -- cleanupExpiredSessions
      intro now s hwf
      simp only [exec]
      exact ihclGo now _ s hwf
    · -- the cleanup loop
      intro now keys s hwf
      cases keys with
      | nil => exact ⟨hwf, rfl⟩
      | cons k rest =>
        simp only [exec]
        cases hgk : mapGet s.sessions k with
        | none =>
          simp only [hgk]
          exact ihclGo now rest s hwf
        | some session =>
          simp only [hgk]
          by_cases hex : isExpiredWaiting now session = true
          · rw [if_pos hex]
            have hna : s.activeSession ≠ some k :=
              hwf.not_active_of_waiting hgk (isExpiredWaiting_status hex)
            obtain ⟨hrmwf, hrmact⟩ := ihrm now k true s hwf
            obtain ⟨hwf', hact'⟩ := ihclGo now rest _ hrmwf
            exact ⟨hwf', hact'.trans (hrmact hna)⟩
          · rw [if_neg hex]
            exact ihclGo now rest s hwf

theorem mapGet_isSome_of_key_mem {m : List (String × α)} {k : String}
    (h : k ∈ m.map Prod.fst) : (mapGet m k).isSome := by
  obtain ⟨p, hp, he⟩ := List.mem_map.1 h
  refine mapHas_iff.1 ?_
  simp only [mapHas, List.any_eq_true]
  exact ⟨p, hp, by simp [he]⟩

theorem insertFresh_wf {s : QMState} (hwf : WF s) {sid : String}
    (hsid : sid ≠ "") (hget : mapGet s.sessions sid = none)
    (now : Int) (fi : FileInfo) : WF (insertFresh now sid fi s) := by
  have hhas : mapHas s.sessions sid = false := mapHas_false.2 hget
  have hkeys : (mapSet s.sessions sid (freshSession now sid fi)).map Prod.fst
      = s.sessions.map Prod.fst ++ [sid] := by
    rw [keys_mapSet, if_neg (by simp [hhas])]
  have hsidnk : sid ∉ s.sessions.map Prod.fst := by
    intro hmem
    have := mapGet_isSome_of_key_mem hmem
    rw [hget] at this
    cases this
  constructor
  · show (mapSet _ _ _).map Prod.fst |>.Nodup
    rw [hkeys]
    simp [List.nodup_append, hwf.keysNodup, hsidnk]
  · intro p hp
    rcases mem_mapSet hp with he | ⟨hp', _⟩
    · rw [he]; exact hsid
    · exact hwf.keysNeEmpty p hp'
  · exact hwf.activeNeEmpty
  · intro p hp hs
    rcases mem_mapSet hp with he | ⟨hp', _⟩
    · rw [he] at hs
      cases hs
    · exact hwf.activeUnique p hp' hs
  · intro a ha
    obtain ⟨sess, hg, hst⟩ := hwf.activeIn a ha
    have hane : a ≠ sid := by
      intro he
      rw [he, hget] at hg
      cases hg
    refine ⟨sess, ?_, hst⟩
    show mapGet (mapSet _ _ _) a = some sess
    rw [mapGet_mapSet_ne _ _ hane]
    exact hg
  · intro k hk
    obtain ⟨sess, hg, hst⟩ := hwf.queueSub k hk
    have hkne : k ≠ sid := by
      intro he
      rw [he, hget] at hg
      cases hg
    refine ⟨sess, ?_, hst⟩
    show mapGet (mapSet _ _ _) k = some sess
    rw [mapGet_mapSet_ne _ _ hkne]
    exact hg
  · exact hwf.queueNodup
  · exact hwf.queueBound

theorem joinQueue_wf {s : QMState} (hwf : WF s) {sid : String}
    (hsid : sid ≠ "") (now : Int) (fi : FileInfo) :
    WF (joinQueue now sid fi s).1 := by
  unfold joinQueue
  by_cases hhas : mapHas s.sessions sid = true
  · rw [if_pos hhas]
    exact hwf
  · rw [if_neg hhas]
    by_cases hfull : s.queue.length ≥ MAX_QUEUE_SIZE ∧ truthyId s.activeSession = true
    · rw [if_pos hfull]
      exact hwf
    · rw [if_neg hfull]
      have hget : mapGet s.sessions sid = none := mapHas_false.1 (by simpa using hhas)
      have hwf1 : WF (insertFresh now sid fi s) := insertFresh_wf hwf hsid hget now fi
      have hnotinq : sid ∉ s.queue := by
        intro hq
        obtain ⟨sess, hg, _⟩ := hwf.queueSub sid hq
        rw [hget] at hg
        cases hg
      dsimp only
      by_cases htr : truthyId s.activeSession = true
      · rw [if_neg (by simp [htr])]
        by_cases hmemq : sid ∈ s.queue
        · rw [if_pos hmemq]
          exact hwf1
        · rw [if_neg hmemq]
          constructor
          · exact hwf1.keysNodup
          · exact hwf1.keysNeEmpty
          · exact hwf1.activeNeEmpty
          · exact hwf1.activeUnique
          · exact hwf1.activeIn
          · intro k hk
            rcases List.mem_append.1 hk with hk | hk
            · exact hwf1.queueSub k hk
            · have : k = sid := by simpa using hk
              subst this
              exact ⟨freshSession now k fi, mapGet_mapSet_self _ _ _, rfl⟩
          · simp only [List.nodup_append]
            refine ⟨hwf.queueNodup, by simp, ?_⟩
            intro a ha hmem
            have : a = sid := by simpa using hmem
            exact hmemq (this ▸ ha)
          · have hlt : s.queue.length < MAX_QUEUE_SIZE := by
              by_contra hge
              exact hfull ⟨by omega, htr⟩
            simpa using hlt
      · have hact : s.activeSession = none := by
          by_contra hne
          exact htr (hwf.truthy_active.2 hne)
        rw [if_pos (by simp [htr])]
        refine setActive_wf now hwf1.keysNodup hwf1.keysNeEmpty ?_
          (mapGet_mapSet_self _ _ _) hwf1.queueSub hwf1.queueNodup hwf1.queueBound hnotinq
        intro p hp hs
        rcases mem_mapSet hp with he | ⟨hp', _⟩
        · rw [he] at hs
          cases hs
        · exact hwf.no_active_of_none hact p hp' hs

/-- No well-formedness field mentions `lastActivityTime`. -/
theorem WF_update_la {s : QMState} (hwf : WF s) (la : List (String × Int)) :
    WF { s with lastActivityTime := la } :=
  ⟨hwf.keysNodup, hwf.keysNeEmpty, hwf.activeNeEmpty, hwf.activeUnique,
   hwf.activeIn, hwf.queueSub, hwf.queueNodup, hwf.queueBound⟩

/-- No well-formedness field mentions `completedSessions`. -/
theorem WF_update_completed {s : QMState} (hwf : WF s) (c : Nat) :
    WF { s with completedSessions := c } :=
  ⟨hwf.keysNodup, hwf.keysNeEmpty, hwf.activeNeEmpty, hwf.activeUnique,
   hwf.activeIn, hwf.queueSub, hwf.queueNodup, hwf.queueBound⟩

theorem updateActivity_wf {s : QMState} (hwf : WF s) (now : Int) (sid : String) :
    WF (updateActivity now sid s) := by
  unfold updateActivity
  by_cases h : s.activeSession = some sid
  · rw [if_pos h]
    exact WF_update_la hwf _
  · rw [if_neg h]
    exact hwf

theorem removeSession_wf {s : QMState} (hwf : WF s) (now : Int) (sid : String) :
    WF (removeSession now sid s) :=
  ((exec_wf (defaultFuel s)).2.1 now sid true s hwf).1

theorem cleanupExpiredSessions_wf {s : QMState} (hwf : WF s) (now : Int) :
    WF (cleanupExpiredSessions now s) :=
  ((exec_wf (defaultFuel s)).2.2.1 now s hwf).1

theorem cleanupExpiredSessions_active {s : QMState} (hwf : WF s) (now : Int) :
    (cleanupExpiredSessions now s).activeSession = s.activeSession :=
  ((exec_wf (defaultFuel s)).2.2.1 now s hwf).2

theorem completeSession_wf {s : QMState} (hwf : WF s) (now : Int) (sid : String) :
    WF (completeSession now sid s) := by
  unfold completeSession
  exact removeSession_wf (WF_update_completed hwf _) now sid

theorem checkSessionTimeout_wf {s : QMState} (hwf : WF s) (now : Int) (sid : String) :
    WF (checkSessionTimeout now sid s).1 := by
  unfold checkSessionTimeout
  by_cases h : s.activeSession ≠ some sid
  · rw [if_pos h]
    exact hwf
  · rw [if_neg h]
    dsimp only
    by_cases ht : now - (mapGet s.lastActivityTime sid).getD 0 ≥ sessionTimeout
    · rw [if_pos ht]
      exact removeSession_wf hwf now sid
    · rw [if_neg ht]
      exact hwf

theorem WF_init : WF QMState.init := by
  constructor <;> simp [QMState.init, mapGet]

/-- Every step from a well-formed state yields a well-formed state. -/
theorem step_wf {s s' : QMState} (hwf : WF s) (hst : Step s s') : WF s' := by
  cases hst with
  | join now sid fi h => exact joinQueue_wf hwf h now fi
  | heartbeat now sid => exact updateActivity_wf hwf now sid
  | complete now sid h => exact completeSession_wf hwf now sid
  | leave now sid h => exact removeSession_wf hwf now sid
  | timeoutCheck now sid => exact checkSessionTimeout_wf hwf now sid
  | cleanup now => exact cleanupExpiredSessions_wf hwf now

theorem reachable_wf {s : QMState} (h : Reachable s) : WF s := by
  induction h with
  | init => exact WF_init
  | step _ hst ih => exact step_wf ih hst

/-! ## The cleanup sweep, characterised -/

theorem cleanupSpecGo_wf {now : Int} :
    ∀ (keys : List String) {s : QMState}, WF s → WF (cleanupSpecGo now keys s) := by
  intro keys
  induction keys with
  | nil => intro s hwf; exact hwf
  | cons k rest ih =>
    intro s hwf
    show WF (cleanupSpecGo now rest _)
    cases hgk : mapGet s.sessions k with
    | none =>
      simp only [cleanupSpecGo, hgk]
      exact ih hwf
    | some session =>
      simp only [cleanupSpecGo, hgk]
      by_cases hex : isExpiredWaiting now session = true
      · rw [if_pos hex]
        exact ih (removeSessionCore_wf hwf k)
      · rw [if_neg hex]
        exact ih hwf

theorem cleanupSpecGo_active {now : Int} :
    ∀ (keys : List String) {s : QMState}, WF s →
      (cleanupSpecGo now keys s).activeSession = s.activeSession := by
  intro keys
  induction keys with
  | nil => intro s _; rfl
  | cons k rest ih =>
    intro s hwf
    cases hgk : mapGet s.sessions k with
    | none =>
      simp only [cleanupSpecGo, hgk]
      exact ih hwf
    | some session =>
      simp only [cleanupSpecGo, hgk]
      by_cases hex : isExpiredWaiting now session = true
      · rw [if_pos hex]
        have hna : s.activeSession ≠ some k :=
          hwf.not_active_of_waiting hgk (isExpiredWaiting_status hex)
        rw [ih (removeSessionCore_wf hwf k), removeSessionCore_active, if_neg hna]
      · rw [if_neg hex]
        exact ih hwf

theorem cleanupSpecGo_queue {now : Int} :
    ∀ (keys : List String) (s : QMState),
      List.Sublist (cleanupSpecGo now keys s).queue s.queue := by
  intro keys
  induction keys with
  | nil => intro s; exact List.Sublist.refl _
  | cons k rest ih =>
    intro s
    cases hgk : mapGet s.sessions k with
    | none =>
      simp only [cleanupSpecGo, hgk]
      exact ih s
    | some session =>
      simp only [cleanupSpecGo, hgk]
      by_cases hex : isExpiredWaiting now session = true
      · rw [if_pos hex]
        refine (ih _).trans ?_
        rw [removeSessionCore_queue]
        exact s.queue.erase_sublist k
      · rw [if_neg hex]
        exact ih s

theorem cleanupSpecGo_entries {now : Int} :
    ∀ (keys : List String) (s : QMState) (k : String) (sess : Session),
      mapGet (cleanupSpecGo now keys s).sessions k = some sess →
      mapGet s.sessions k = some sess := by
  intro keys
  induction keys with
  | nil => intro s k sess h; exact h
  | cons k0 rest ih =>
    intro s k sess h
    cases hgk : mapGet s.sessions k0 with
    | none =>
      simp only [cleanupSpecGo, hgk] at h
      exact ih s k sess h
    | some session =>
      simp only [cleanupSpecGo, hgk] at h
      by_cases hex : isExpiredWaiting now session = true
      · rw [if_pos hex] at h
        have h' := ih _ k sess h
        rw [removeSessionCore_sessions] at h'
        by_cases hk : k = k0
        · rw [hk, mapGet_mapDelete_self] at h'
          cases h'
        · rw [mapGet_mapDelete_ne _ hk] at h'
          exact h'
      · rw [if_neg hex] at h
        exact ih s k sess h

theorem cleanupSpecGo_clears {now : Int} :
    ∀ (keys : List String) (s : QMState) (k : String) (sess : Session),
      mapGet (cleanupSpecGo now keys s).sessions k = some sess →
      isExpiredWaiting now sess = true → k ∉ keys := by
  intro keys
  induction keys with
  | nil => intro s k sess _ _; simp
  | cons k0 rest ih =>
    intro s k sess h hex
    cases hgk : mapGet s.sessions k0 with
    | none =>
      simp only [cleanupSpecGo, hgk] at h
      intro hmem
      rcases List.mem_cons.1 hmem with he | hmem'
      · subst he
        have := cleanupSpecGo_entries rest s k sess h
        rw [hgk] at this
        cases this
      · exact ih s k sess h hex hmem'
    | some session =>
      simp only [cleanupSpecGo, hgk] at h
      by_cases hx : isExpiredWaiting now session = true
      · rw [if_pos hx] at h
        intro hmem
        rcases List.mem_cons.1 hmem with he | hmem'
        · subst he
          have := cleanupSpecGo_entries rest _ k sess h
          rw [removeSessionCore_sessions, mapGet_mapDelete_self] at this
          cases this
        · exact ih _ k sess h hex hmem'
      · rw [if_neg hx] at h
        intro hmem
        rcases List.mem_cons.1 hmem with he | hmem'
        · subst he
          have := cleanupSpecGo_entries rest s k sess h
          rw [hgk] at this
          cases this
          rw [hex] at hx
          exact hx rfl
        · exact ih s k sess h hex hmem'

/-- After the sweep, no expired waiting session survives. -/
theorem cleanupSpec_noExpired {now : Int} (s : QMState) (k : String) (sess : Session)
    (h : mapGet (cleanupSpec now s).sessions k = some sess) :
    isExpiredWaiting now sess = false := by
  by_contra hx
  have hex : isExpiredWaiting now sess = true := by
    cases hb : isExpiredWaiting now sess with
    | false => exact absurd hb hx
    | true => rfl
  have hnotin := cleanupSpecGo_clears (s.sessions.map Prod.fst) s k sess h hex
  have hin := cleanupSpecGo_entries (s.sessions.map Prod.fst) s k sess h
  exact hnotin (mapGet_key_mem hin)

/-- If no session is expired, the sweep is the identity. -/
theorem cleanupSpecGo_id {now : Int} :
    ∀ (keys : List String) (s : QMState),
      (∀ p ∈ s.sessions, isExpiredWaiting now p.2 = false) →
      cleanupSpecGo now keys s = s := by
  intro keys
  induction keys with
  | nil => intro s _; rfl
  | cons k rest ih =>
    intro s hne
    cases hgk : mapGet s.sessions k with
    | none =>
      simp only [cleanupSpecGo, hgk]
      exact ih s hne
    | some session =>
      simp only [cleanupSpecGo, hgk]
      have hx : isExpiredWaiting now session = false := hne _ (mapGet_mem hgk)
      rw [if_neg (by simp [hx])]
      exact ih s hne

/-! ## The fuel interpreter agrees with the specification functions on
well-formed states -/

theorem exec_clGo_eq_spec {now : Int} :
    ∀ (keys : List String) (fuel : Nat) (s : QMState), WF s →
      keys.length + 1 ≤ fuel →
      exec fuel (.clGo now keys) s = (cleanupSpecGo now keys s, none) := by
  intro keys
  induction keys with
  | nil =>
    intro fuel s _ hfuel
    cases fuel with
    | zero => omega
    | succ g => rfl
  | cons k rest ih =>
    intro fuel s hwf hfuel
    cases fuel with
    | zero => simp at hfuel
    | succ g =>
      have hg : rest.length + 1 ≤ g := by
        simp only [List.length_cons] at hfuel
        omega
      simp only [exec]
      cases hgk : mapGet s.sessions k with
      | none =>
        simp only [hgk, cleanupSpecGo]
        exact ih g s hwf hg
      | some session =>
        simp only [hgk, cleanupSpecGo]
        by_cases hex : isExpiredWaiting now session = true
        · rw [if_pos hex, if_pos hex]
          have hna : s.activeSession ≠ some k :=
            hwf.not_active_of_waiting hgk (isExpiredWaiting_status hex)
          have hrm : exec g (.rm now k true) s = ((removeSessionCore k s).1, none) := by
            cases g with
            | zero => omega
            | succ g' =>
              simp only [exec]
              have hwa : (removeSessionCore k s).2 = false := by
                by_contra hc
                exact hna ((removeSessionCore_wasActive k s).1 (by simpa using hc))
              rw [if_neg (by simp [hwa])]
          rw [hrm]
          exact ih g _ (removeSessionCore_wf hwf k) hg
        · rw [if_neg hex, if_neg hex]
          exact ih g s hwf hg

theorem exec_cl_eq_spec {now : Int} {fuel : Nat} {s : QMState} (hwf : WF s)
    (hfuel : s.sessions.length + 2 ≤ fuel) :
    exec fuel (.cl now) s = (cleanupSpec now s, none) := by
  cases fuel with
  | zero => omega
  | succ g =>
    simp only [exec]
    refine exec_clGo_eq_spec _ g s hwf ?_
    simp only [List.length_map]
    omega

theorem exec_pq_eq_spec {now : Int} {fuel : Nat} {s : QMState} (hwf : WF s)
    (hfuel : s.sessions.length + 3 ≤ fuel) :
    exec fuel (.pq now) s = promoteHead now (cleanupSpec now s) := by
  cases fuel with
  | zero => omega
  | succ g =>
    simp only [exec]
    rw [exec_cl_eq_spec hwf (by omega)]
    have hcwf : WF (cleanupSpec now s) := cleanupSpecGo_wf _ hwf
    cases hq : (cleanupSpec now s).queue with
    | nil =>
      simp only [hq, promoteHead]
    | cons h rest =>
      simp only [hq, promoteHead]
      have hh : h ∈ (cleanupSpec now s).queue := by
        rw [hq]; exact List.mem_cons_self _ _
      obtain ⟨sess, hgets, _⟩ := hcwf.queueSub h hh
      have hgets' :
          mapGet ({ cleanupSpec now s with queue := rest } : QMState).sessions h
            = some sess := hgets
      rw [hgets']

/-- `processQueue` on a well-formed state with a free active slot: sweep, then
promote the head of the (swept) queue. -/
theorem processQueue_eq {now : Int} {s : QMState} (hwf : WF s) :
    processQueue now s = promoteHead now (cleanupSpec now s) := by
  unfold processQueue
  exact exec_pq_eq_spec hwf (by unfold defaultFuel; omega)

/-- `cleanupExpiredSessions` on a well-formed state is exactly the sweep. -/
theorem cleanupExpiredSessions_eq {now : Int} {s : QMState} (hwf : WF s) :
    cleanupExpiredSessions now s = cleanupSpec now s := by
  unfold cleanupExpiredSessions
  rw [exec_cl_eq_spec hwf (by unfold defaultFuel; omega)]

/-- `removeSession` on a well-formed state: splice out, and when the removed
session held the active slot, sweep and promote. -/
theorem removeSession_eq {now : Int} {sid : String} {s : QMState} (hwf : WF s) :
    removeSession now sid s =
      if (removeSessionCore sid s).2 = true then
        (promoteHead now (cleanupSpec now (removeSessionCore sid s).1)).1
      else (removeSessionCore sid s).1 := by
  unfold removeSession
  rw [show defaultFuel s = (s.sessions.length + s.queue.length + 2) + 1 from rfl]
  rw [show exec ((s.sessions.length + s.queue.length + 2) + 1) (.rm now sid true) s =
    (if ((removeSessionCore sid s).2 && true) = true then
      exec (s.sessions.length + s.queue.length + 2) (.pq now) (removeSessionCore sid s).1
    else ((removeSessionCore sid s).1, none)) from rfl]
  by_cases hwa : (removeSessionCore sid s).2 = true
  · rw [if_pos (by simp [hwa]), if_pos hwa]
    have hact : s.activeSession = some sid := (removeSessionCore_wasActive sid s).1 hwa
    have hcact : (removeSessionCore sid s).1.activeSession = none := by
      rw [removeSessionCore_active, if_pos hact]
    have hcwf : WF (removeSessionCore sid s).1 := removeSessionCore_wf hwf sid
    obtain ⟨sess, hg, _⟩ := hwf.activeIn sid hact
    have hmem : sid ∈ s.sessions.map Prod.fst := mapGet_key_mem hg
    have hlen : (removeSessionCore sid s).1.sessions.length + 1 ≤ s.sessions.length := by
      rw [removeSessionCore_sessions]
      have : (mapDelete s.sessions sid).length < s.sessions.length := by
        refine List.length_filter_lt_length_iff_exists.2 ?_
        exact ⟨(sid, sess), mapGet_mem hg, by simp⟩
      omega
    rw [exec_pq_eq_spec hcwf (by omega)]
  · rw [if_neg (by simp [hwa]), if_neg hwa]

/-! ## Branch-by-branch description of `joinQueue` -/

theorem joinQueue_known {now : Int} {sid : String} {fi : FileInfo} {s : QMState}
    (h : mapHas s.sessions sid = true) :
    joinQueue now sid fi s = (s, .status (getQueueStatus now sid s)) := by
  unfold joinQueue
  rw [if_pos h]

theorem joinQueue_full {now : Int} {sid : String} {fi : FileInfo} {s : QMState}
    (h1 : mapHas s.sessions sid = false)
    (h2 : s.queue.length ≥ MAX_QUEUE_SIZE) (h3 : truthyId s.activeSession = true) :
    joinQueue now sid fi s = (s, .queueFull) := by
  unfold joinQueue
  rw [if_neg (by simp [h1]), if_pos ⟨h2, h3⟩]

theorem joinQueue_activate {now : Int} {sid : String} {fi : FileInfo} {s : QMState}
    (h1 : mapHas s.sessions sid = false)
    (hnf : ¬ (s.queue.length ≥ MAX_QUEUE_SIZE ∧ truthyId s.activeSession = true))
    (htr : truthyId s.activeSession = false) :
    (joinQueue now sid fi s).1 =
      setActiveSession now sid (freshSession now sid fi) (insertFresh now sid fi s) := by
  unfold joinQueue
  rw [if_neg (by simp [h1]), if_neg hnf]
  dsimp only
  rw [if_pos (by simp [htr])]
  rfl

theorem joinQueue_append {now : Int} {sid : String} {fi : FileInfo} {s : QMState}
    (h1 : mapHas s.sessions sid = false)
    (hnf : ¬ (s.queue.length ≥ MAX_QUEUE_SIZE ∧ truthyId s.activeSession = true))
    (htr : truthyId s.activeSession = true) (hnq : sid ∉ s.queue) :
    (joinQueue now sid fi s).1 =
      { insertFresh now sid fi s with queue := s.queue ++ [sid] } := by
  unfold joinQueue
  rw [if_neg (by simp [h1]), if_neg hnf]
  dsimp only
  rw [if_neg (by simp [htr]), if_neg hnq]
  rfl

theorem joinQueue_active_of_truthy {now : Int} {sid : String} {fi : FileInfo}
    {s : QMState} (hwf : WF s) :
    (joinQueue now sid fi s).1.activeSession = s.activeSession ∨
      (joinQueue now sid fi s).1.activeSession = some sid := by
  by_cases h1 : mapHas s.sessions sid = true
  · rw [joinQueue_known h1]
    exact Or.inl rfl
  · have h1' : mapHas s.sessions sid = false := by simpa using h1
    by_cases hnf : s.queue.length ≥ MAX_QUEUE_SIZE ∧ truthyId s.activeSession = true
    · rw [joinQueue_full h1' hnf.1 hnf.2]
      exact Or.inl rfl
    · by_cases htr : truthyId s.activeSession = true
      · have hnq : sid ∉ s.queue := by
          intro hq
          obtain ⟨sess, hg, _⟩ := hwf.queueSub sid hq
          rw [mapHas_false.1 h1'] at hg
          cases hg
        rw [joinQueue_append h1' hnf htr hnq]
        exact Or.inl rfl
      · rw [joinQueue_activate h1' hnf (by simpa using htr)]
        exact Or.inr rfl

/-! ## Preservation of the resting-state invariant -/

theorem promoteHead_inv {now : Int} {t : QMState} (hwf : WF t) :
    (promoteHead now t).1.queue ≠ [] → (promoteHead now t).1.activeSession ≠ none := by
  cases hq : t.queue with
  | nil =>
    simp only [promoteHead, hq]
    intro h
    exact absurd rfl h
  | cons h rest =>
    have hh : h ∈ t.queue := by rw [hq]; exact List.mem_cons_self _ _
    obtain ⟨sess, hgets, _⟩ := hwf.queueSub h hh
    simp only [promoteHead, hq, hgets]
    intro _
    simp [setActiveSession]

theorem updateActivity_queue (now : Int) (sid : String) (s : QMState) :
    (updateActivity now sid s).queue = s.queue := by
  unfold updateActivity
  by_cases h : s.activeSession = some sid <;> simp [h]

theorem updateActivity_active (now : Int) (sid : String) (s : QMState) :
    (updateActivity now sid s).activeSession = s.activeSession := by
  unfold updateActivity
  by_cases h : s.activeSession = some sid <;> simp [h]

theorem removeSession_inv {now : Int} {sid : String} {s : QMState} (hinv : Inv s) :
    Inv (removeSession now sid s) := by
  obtain ⟨hwf, hqa⟩ := hinv
  refine ⟨removeSession_wf hwf now sid, ?_⟩
  rw [removeSession_eq hwf]
  by_cases hwa : (removeSessionCore sid s).2 = true
  · rw [if_pos hwa]
    exact promoteHead_inv (cleanupSpecGo_wf _ (removeSessionCore_wf hwf sid))
  · rw [if_neg hwa]
    rw [removeSessionCore_queue, removeSessionCore_active]
    have hna : ¬ s.activeSession = some sid := by
      intro hc
      exact hwa ((removeSessionCore_wasActive sid s).2 hc)
    rw [if_neg hna]
    intro hq
    refine hqa ?_
    intro hnil
    rw [hnil] at hq
    exact hq rfl

theorem cleanup_inv {now : Int} {s : QMState} (hinv : Inv s) :
    Inv (cleanupExpiredSessions now s) := by
  obtain ⟨hwf, hqa⟩ := hinv
  refine ⟨cleanupExpiredSessions_wf hwf now, ?_⟩
  rw [cleanupExpiredSessions_eq hwf]
  rw [show (cleanupSpec now s).activeSession = s.activeSession from cleanupSpecGo_active _ hwf]
  intro hq
  refine hqa ?_
  intro hnil
  have := @cleanupSpecGo_queue now (s.sessions.map Prod.fst) s
  rw [hnil] at this
  exact hq (List.sublist_nil.1 this)

theorem join_inv {now : Int} {sid : String} {fi : FileInfo} {s : QMState}
    (hinv : Inv s) (hsid : sid ≠ "") : Inv (joinQueue now sid fi s).1 := by
  obtain ⟨hwf, hqa⟩ := hinv
  refine ⟨joinQueue_wf hwf hsid now fi, ?_⟩
  by_cases h1 : mapHas s.sessions sid = true
  · rw [joinQueue_known h1]
    exact hqa
  · have h1' : mapHas s.sessions sid = false := by simpa using h1
    by_cases hnf : s.queue.length ≥ MAX_QUEUE_SIZE ∧ truthyId s.activeSession = true
    · rw [joinQueue_full h1' hnf.1 hnf.2]
      exact hqa
    · by_cases htr : truthyId s.activeSession = true
      · have hnq : sid ∉ s.queue := by
          intro hq
          obtain ⟨sess, hg, _⟩ := hwf.queueSub sid hq
          rw [mapHas_false.1 h1'] at hg
          cases hg
        rw [joinQueue_append h1' hnf htr hnq]
        intro _
        show s.activeSession ≠ none
        exact hwf.truthy_active.1 htr
      · rw [joinQueue_activate h1' hnf (by simpa using htr)]
        intro _
        simp [setActiveSession]

theorem step_inv {s s' : QMState} (hinv : Inv s) (hst : Step s s') : Inv s' := by
  cases hst with
  | join now sid fi h => exact join_inv hinv h
  | heartbeat now sid =>
    refine ⟨updateActivity_wf hinv.1 now sid, ?_⟩
    rw [updateActivity_queue, updateActivity_active]
    exact hinv.2
  | complete now sid h =>
    unfold completeSession
    exact removeSession_inv ⟨WF_update_completed hinv.1 _, hinv.2⟩
  | leave now sid h => exact removeSession_inv hinv
  | timeoutCheck now sid =>
    unfold checkSessionTimeout
    by_cases h : s.activeSession ≠ some sid
    · rw [if_pos h]
      exact hinv
    · rw [if_neg h]
      dsimp only
      by_cases ht : now - (mapGet s.lastActivityTime sid).getD 0 ≥ sessionTimeout
      · rw [if_pos ht]
        exact removeSession_inv hinv
      · rw [if_neg ht]
        exact hinv
  | cleanup now => exact cleanup_inv hinv

theorem Inv_init : Inv QMState.init :=
  ⟨WF_init, fun h => absurd rfl h⟩

theorem reachable_inv {s : QMState} (h : Reachable s) : Inv s := by
  induction h with
  | init => exact Inv_init
  | step _ hst ih => exact step_inv ih hst

/-! ## Counting sessions with status `'active'` -/

theorem filter_length_le_one {l : List (String × Session)}
    {P : String × Session → Bool} {a : String}
    (hnd : (l.map Prod.fst).Nodup) (h : ∀ p ∈ l, P p = true → p.1 = a) :
    (l.filter P).length ≤ 1 := by
  induction l with
  | nil => simp
  | cons x xs ih =>
    simp only [List.map_cons, List.nodup_cons] at hnd
    rw [List.filter_cons]
    by_cases hx : P x = true
    · rw [if_pos hx]
      have hxs : xs.filter P = [] := by
        rw [List.filter_eq_nil_iff]
        intro p hp hPp
        have h1 : p.1 = a := h p (List.mem_cons_of_mem _ hp) hPp
        have h2 : x.1 = a := h x (List.mem_cons_self _ _) hx
        have : p.1 ∈ xs.map Prod.fst := List.mem_map.2 ⟨p, hp, rfl⟩
        rw [h1, ← h2] at this
        exact hnd.1 this
      simp [hxs]
    · rw [if_neg hx]
      exact ih hnd.2 (fun p hp => h p (List.mem_cons_of_mem _ hp))

theorem activeCount_le_one {s : QMState} (hwf : WF s) : activeCount s ≤ 1 := by
  unfold activeCount
  cases ha : s.activeSession with
  | none =>
    have : s.sessions.filter (fun p => p.2.status == SessionStatus.active) = [] := by
      rw [List.filter_eq_nil_iff]
      intro p hp hPp
      exact hwf.no_active_of_none ha p hp (by simpa using hPp)
    simp [this]
  | some a =>
    refine @filter_length_le_one _ _ a hwf.keysNodup ?_
    intro p hp hPp
    have := hwf.activeUnique p hp (by simpa using hPp)
    rw [ha] at this
    exact (Option.some.inj this).symm

/-! ## Remaining map lemmas for the claim ledger -/

theorem mapGet_filter_none {m : List (String × α)} {k : String}
    {P : String × α → Bool} (h : ∀ p ∈ m, p.1 = k → P p = false) :
    mapGet (m.filter P) k = none := by
  induction m with
  | nil => rfl
  | cons p m ih =>
    rw [List.filter_cons]
    by_cases hP : P p = true
    · rw [if_pos hP, mapGet_cons]
      have hpk : ¬ (p.1 = k) := by
        intro he
        rw [h p (List.mem_cons_self _ _) he] at hP
        cases hP
      rw [if_neg hpk]
      exact ih (fun q hq => h q (List.mem_cons_of_mem _ hq))
    · rw [if_neg hP]
      exact ih (fun q hq => h q (List.mem_cons_of_mem _ hq))

theorem isExpiredWaiting_false_of_active {now : Int} {sess : Session}
    (h : sess.status = SessionStatus.active) : isExpiredWaiting now sess = false := by
  unfold isExpiredWaiting
  rw [decide_eq_false_iff_not]
  intro hc
  rw [h] at hc
  cases hc.1

/-! # The claims -/

/-- C1 (counterexample): the claim quantifies over sequences of the listed
operations including a bare `processQueue`.  Calling `processQueue` directly
while a session is active resets `activeSession` (or hands it to the queue
head) without clearing the previous session's `status` field: after
`joinQueue("a")`, `processQueue()`, `joinQueue("b")`, both `a` and `b` have
`status === 'active'`, so the number of sessions with status `'active'` is 2,
not at most 1. -/
theorem C1_counterexample :
    activeCount
      (joinQueue 1 "b" sampleFile
        (processQueue 0 (joinQueue 0 "a" sampleFile QMState.init).1).1).1 = 2 ∧
    ¬ activeCount
      (joinQueue 1 "b" sampleFile
        (processQueue 0 (joinQueue 0 "a" sampleFile QMState.init).1).1).1 ≤ 1 := by
  decide

/-- C1 (amended): in every state reachable by sequences of the operations as
the server invokes them — `joinQueue` (with the non-empty session ids the
HTTP layer enforces), `updateActivity`, `completeSession`, `removeSession`,
`checkSessionTimeout` and `cleanupExpiredSessions`, with `processQueue`
running only internally, inside `removeSession`, after the active session has
been removed — at most one session has status `'active'` (and the
`activeSession` slot, being a single nullable field, holds at most one id by
construction). -/
theorem C1_at_most_one_active (s : QMState) (hr : Reachable s) :
    activeCount s ≤ 1 :=
  activeCount_le_one (reachable_wf hr)

/-- C1 witness: the bound holds at the concrete reachable two-session state. -/
theorem C1_witness : activeCount twoSessionState ≤ 1 :=
  C1_at_most_one_active twoSessionState
    (Reachable.step
      (Reachable.step Reachable.init (Step.join _ 1000 "a" sampleFile (by decide)))
      (Step.join _ 2000 "b" sampleFile (by decide)))

/-- C5 (counterexample): `getQueueStatus` computes `timeRemaining` from
`activatedAt` (line 525), not from the `lastActivityTime` clock that
`updateActivity` resets and that `checkSessionTimeout` consults.  Session
`s1` activates at 1000 and heartbeats at 31000; at 61000 the reported
`timeRemaining` is `90000 - (61000 - 1000) = 30000`, while the residual
budget of the timeout (the delta the timeout check re-arms itself with) is
`90000 - (61000 - 31000) = 60000`.  The claim's equation fails. -/
theorem C5_counterexample :
    getQueueStatus 61000 "s1" heartbeatState = .activeSt 0 true 30000 ∧
    (checkSessionTimeout 61000 "s1" heartbeatState).2 = .reschedule 60000 ∧
    (30000 : Int) ≠ 60000 := by
  decide

/-- C5 (amended): for the currently active session `getQueueStatus` returns
status active, position 0, `canProceed` true, and a `timeRemaining` of
`max 0 (90000 - (now - activatedAt))` — the 90-second window minus the time
elapsed since the session was *activated*.  Heartbeats (`updateActivity`)
reset the separate `lastActivityTime` timeout clock but do not affect the
reported `timeRemaining`. -/
theorem C5_time_remaining (s : QMState) (now t : Int) (sid : String)
    (sess : Session) (hget : mapGet s.sessions sid = some sess)
    (hact : s.activeSession = some sid) (ha : sess.activatedAt = some t)
    (ht : t ≠ 0) :
    getQueueStatus now sid s =
      .activeSt 0 true (max 0 (sessionTimeout - (now - t))) ∧
    (∀ t', getQueueStatus now sid (updateActivity t' sid s) =
      getQueueStatus now sid s) := by
  constructor
  · unfold getQueueStatus
    simp only [hget]
    rw [if_pos hact]
    simp only [ha]
    rw [if_neg ht]
  · intro t'
    unfold updateActivity
    by_cases h : s.activeSession = some sid
    · rw [if_pos h]
      rfl
    · rw [if_neg h]

/-- C5 witness: the amended formula evaluated on the heartbeat scenario. -/
theorem C5_witness :
    getQueueStatus 61000 "s1" heartbeatState =
      .activeSt 0 true (max 0 (sessionTimeout - (61000 - 1000))) ∧
    (∀ t', getQueueStatus 61000 "s1" (updateActivity t' "s1" heartbeatState) =
      getQueueStatus 61000 "s1" heartbeatState) :=
  C5_time_remaining heartbeatState 61000 1000 "s1"
    { id := "s1", fileInfo := sampleFile, joinedAt := 1000
      status := SessionStatus.active, activatedAt := some 1000 }
    (by decide) (by decide) (by decide) (by decide)

/-- C7: claiming a coin binds the key `(timestamp, value)` to the session; a
later claim for the same key silently overwrites it (last-write-wins); the
sweep, registered with `setInterval(…, 60000)`, deletes entries older than
the five-minute TTL, after which the lookup performed by
`GET /api/arduino-status` reports the key as absent. -/
theorem C7_claim_ledger (m : ClaimedCoins) (now t v : Int) (sid : String)
    (ht : t ≠ 0) (hv : v ≠ 0) (hsid : sid ≠ "") :
    (claimCoin now t v sid m).2 = .ok (coinKey t v) ∧
    lookupClaim t v (claimCoin now t v sid m).1 =
      some { timestamp := t, value := v, sessionId := sid, claimedAt := now } ∧
    (∀ sid2 now2, sid2 ≠ "" →
      lookupClaim t v (claimCoin now2 t v sid2 (claimCoin now t v sid m).1).1 =
        some { timestamp := t, value := v, sessionId := sid2, claimedAt := now2 }) ∧
    (∀ nowSweep, nowSweep - now > claimTTLms →
      lookupClaim t v
        (cleanupClaimedCoins nowSweep (claimCoin now t v sid m).1) = none) ∧
    claimSweepIntervalMs = 60000 ∧ claimTTLms = 5 * 60 * 1000 := by
  have hok : ¬ (t = 0 ∨ v = 0 ∨ sid = "") := by simp [ht, hv, hsid]
  refine ⟨?_, ?_, ?_, ?_, rfl, rfl⟩
  · unfold claimCoin
    rw [if_neg hok]
  · unfold claimCoin lookupClaim
    rw [if_neg hok]
    exact mapGet_mapSet_self _ _ _
  · intro sid2 now2 hsid2
    have hok2 : ¬ (t = 0 ∨ v = 0 ∨ sid2 = "") := by simp [ht, hv, hsid2]
    unfold claimCoin lookupClaim
    rw [if_neg hok, if_neg hok2]
    exact mapGet_mapSet_self _ _ _
  · intro nowSweep hs
    unfold claimCoin lookupClaim cleanupClaimedCoins
    rw [if_neg hok]
    refine mapGet_filter_none ?_
    intro p hp hpk
    rcases mem_mapSet hp with he | ⟨_, hne⟩
    · rw [he]
      simp only [decide_eq_false_iff_not, Decidable.not_not]
      unfold claimTTLms at hs
      omega
    · exact absurd hpk hne

/-- C7 witness: claim, overwrite, and expiry on a concrete ledger. -/
theorem C7_witness :
    (claimCoin 100 5 10 "S1" []).2 = .ok (coinKey 5 10) ∧
    lookupClaim 5 10 (claimCoin 100 5 10 "S1" []).1 =
      some { timestamp := 5, value := 10, sessionId := "S1", claimedAt := 100 } ∧
    (∀ sid2 now2, sid2 ≠ "" →
      lookupClaim 5 10 (claimCoin now2 5 10 sid2 (claimCoin 100 5 10 "S1" []).1).1 =
        some { timestamp := 5, value := 10, sessionId := sid2, claimedAt := now2 }) ∧
    (∀ nowSweep, nowSweep - 100 > claimTTLms →
      lookupClaim 5 10
        (cleanupClaimedCoins nowSweep (claimCoin 100 5 10 "S1" []).1) = none) ∧
    claimSweepIntervalMs = 60000 ∧ claimTTLms = 5 * 60 * 1000 :=
  C7_claim_ledger [] 100 5 10 "S1" (by decide) (by decide) (by decide)

/-- C9: a `POST /api/print` request with a file but no (or an empty, hence
falsy) `sessionId` reaches the printer without the admission check: the
`canProceedToPayment` gate and its 403 rejection apply only when a truthy
`sessionId` is supplied, whatever the queue state and whoever is active. -/
theorem C9_print_gate (s : QMState) :
    printGate true none s = .proceed ∧
    printGate true (some "") s = .proceed ∧
    (∀ sid, sid ≠ "" → canProceedToPayment sid s = false →
      printGate true (some sid) s = .notYourTurn) := by
  refine ⟨rfl, rfl, ?_⟩
  intro sid hsid hcp
  have hu : printGate true (some sid) s =
      (if sid = "" then .proceed
       else if ¬ canProceedToPayment sid s = true then .notYourTurn
       else .proceed) := rfl
  rw [hu, if_neg hsid, if_pos (by simp [hcp])]

/-- C9 witness: with `b` active, a request without `sessionId` proceeds while
session `a`'s request is rejected. -/
theorem C9_witness :
    printGate true none twoSessionState = .proceed ∧
    printGate true (some "") twoSessionState = .proceed ∧
    printGate true (some "b") twoSessionState = .notYourTurn :=
  ⟨(C9_print_gate twoSessionState).1, (C9_print_gate twoSessionState).2.1,
    (C9_print_gate twoSessionState).2.2 "b" (by decide) (by decide)⟩

/-- C10: `POST /api/claim-coin` accepts any request whose three fields are
truthy and unconditionally overwrites the ledger entry for the key,
reporting success.  Its handler takes no queue-manager state at all (compare
the signature of `claimCoin` with `canProceedToPayment`) and never inspects
the last coin event, so any caller can bind — or rebind a key already
claimed by a different session — to an arbitrary session id. -/
theorem C10_claim_unchecked (m : ClaimedCoins) (now t v : Int) (sid : String)
    (ht : t ≠ 0) (hv : v ≠ 0) (hsid : sid ≠ "") :
    (claimCoin now t v sid m).2 = .ok (coinKey t v) ∧
    mapGet (claimCoin now t v sid m).1 (coinKey t v) =
      some { timestamp := t, value := v, sessionId := sid, claimedAt := now } := by
  have hok : ¬ (t = 0 ∨ v = 0 ∨ sid = "") := by simp [ht, hv, hsid]
  constructor
  · unfold claimCoin
    rw [if_neg hok]
  · unfold claimCoin
    rw [if_neg hok]
    exact mapGet_mapSet_self _ _ _

/-- C10 witness: a key already claimed by session `other` is rebound to
session `mine` with a success result. -/
theorem C10_witness :
    (claimCoin 99 5 10 "mine"
      [(coinKey 5 10, { timestamp := 5, value := 10, sessionId := "other", claimedAt := 0 })]).2
      = .ok (coinKey 5 10) ∧
    mapGet (claimCoin 99 5 10 "mine"
      [(coinKey 5 10, { timestamp := 5, value := 10, sessionId := "other", claimedAt := 0 })]).1
      (coinKey 5 10) =
      some { timestamp := 5, value := 10, sessionId := "mine", claimedAt := 99 } :=
  C10_claim_unchecked
    [(coinKey 5 10, { timestamp := 5, value := 10, sessionId := "other", claimedAt := 0 })]
    99 5 10 "mine" (by decide) (by decide) (by decide)

theorem joinQueue_not_full_result {now : Int} {sid : String} {fi : FileInfo}
    {s : QMState} (h1 : mapHas s.sessions sid = false)
    (hnf : ¬ (s.queue.length ≥ MAX_QUEUE_SIZE ∧ truthyId s.activeSession = true)) :
    ∃ st, (joinQueue now sid fi s).2 = .status st := by
  unfold joinQueue
  rw [if_neg (by simp [h1]), if_neg hnf]
  exact ⟨_, rfl⟩

/-- C2: for a previously unknown session id, `joinQueue` answers with the
well-formed `queueFull` rejection object (never an exception — the embedding
is a total function) exactly when the waiting queue already holds
`MAX_QUEUE_SIZE = 10` entries and some session is active; in that case the
state — queue, session map, activity map and active slot — is returned
unchanged, and with no active session a join never fails on capacity
grounds. -/
theorem C2_queue_full (s : QMState) (now : Int) (sid : String) (fi : FileInfo)
    (hr : Reachable s) (hget : mapGet s.sessions sid = none) :
    ((joinQueue now sid fi s).2 = .queueFull ↔
      (s.queue.length = MAX_QUEUE_SIZE ∧ s.activeSession ≠ none)) ∧
    ((joinQueue now sid fi s).2 = .queueFull → (joinQueue now sid fi s).1 = s) ∧
    (s.activeSession = none → (joinQueue now sid fi s).2 ≠ .queueFull) ∧
    MAX_QUEUE_SIZE = 10 := by
  have hwf := reachable_wf hr
  have h1 : mapHas s.sessions sid = false := mapHas_false.2 hget
  by_cases hc : s.queue.length ≥ MAX_QUEUE_SIZE ∧ truthyId s.activeSession = true
  · rw [joinQueue_full h1 hc.1 hc.2]
    dsimp only
    refine ⟨⟨fun _ => ⟨le_antisymm hwf.queueBound hc.1, hwf.truthy_active.1 hc.2⟩,
      fun _ => rfl⟩, fun _ => rfl, ?_, rfl⟩
    intro hnone
    rw [hnone] at hc
    simp [truthyId] at hc
  · obtain ⟨st, hst⟩ := @joinQueue_not_full_result now sid fi s h1 hc
    refine ⟨?_, ?_, ?_, rfl⟩
    · rw [hst]
      constructor
      · intro h
        cases h
      · rintro ⟨hlen, hact⟩
        exact absurd ⟨by omega, hwf.truthy_active.2 hact⟩ hc
    · rw [hst]
      intro h
      cases h
    · intro _
      rw [hst]
      intro h
      cases h

/-- C2 witness: with `s1` active and `s2`…`s11` waiting (a queue of 10), the
12th session's join is the `queueFull` rejection and changes nothing. -/
theorem C2_witness :
    (((joinQueue 11 "s12" sampleFile fullState).2 = .queueFull ↔
      (fullState.queue.length = MAX_QUEUE_SIZE ∧ fullState.activeSession ≠ none)) ∧
    ((joinQueue 11 "s12" sampleFile fullState).2 = .queueFull →
      (joinQueue 11 "s12" sampleFile fullState).1 = fullState) ∧
    (fullState.activeSession = none →
      (joinQueue 11 "s12" sampleFile fullState).2 ≠ .queueFull) ∧
    MAX_QUEUE_SIZE = 10) ∧
    (joinQueue 11 "s12" sampleFile fullState).2 = .queueFull := by
  refine ⟨C2_queue_full fullState 11 "s12" sampleFile ?_ (by decide), by decide⟩
  show Reachable fullState
  unfold fullState
  refine Reachable.step (Reachable.step (Reachable.step (Reachable.step
    (Reachable.step (Reachable.step (Reachable.step (Reachable.step
      (Reachable.step (Reachable.step (Reachable.step Reachable.init
        (Step.join _ 0 "s1" sampleFile (by decide)))
        (Step.join _ 1 "s2" sampleFile (by decide)))
        (Step.join _ 2 "s3" sampleFile (by decide)))
        (Step.join _ 3 "s4" sampleFile (by decide)))
        (Step.join _ 4 "s5" sampleFile (by decide)))
        (Step.join _ 5 "s6" sampleFile (by decide)))
        (Step.join _ 6 "s7" sampleFile (by decide)))
        (Step.join _ 7 "s8" sampleFile (by decide)))
        (Step.join _ 8 "s9" sampleFile (by decide)))
        (Step.join _ 9 "s10" sampleFile (by decide)))
        (Step.join _ 10 "s11" sampleFile (by decide))

/-- C8 (counterexample): by time 700000 session `b` (joined at 1) has waited
more than the ten-minute bound, yet firing the registered interval tasks —
the two file sweeps and the claimed-coins sweep, the only `setInterval`
registrations in server.js — leaves the queue manager untouched: no sweep
independent of queue activity reclaims it, contradicting the claim that the
waiting-session sweep "additionally runs on a fixed interval". -/
theorem C8_counterexample :
    mapGet staleState.sessions "b" =
      some { id := "b", fileInfo := sampleFile, joinedAt := 1
             status := SessionStatus.waiting, activatedAt := none } ∧
    isExpiredWaiting 700000
      { id := "b", fileInfo := sampleFile, joinedAt := 1
        status := SessionStatus.waiting, activatedAt := none } = true ∧
    (intervalTick 700000 { qm := staleState, claimedCoins := [] }).qm = staleState := by
  decide

/-- C8 (amended): every `WAITING` session older than the 10-minute bound is
removed by the sweep, which runs as part of every `processQueue` invocation
(and on every direct `cleanupExpiredSessions` call); there is no additional
fixed-interval sweep — the registered interval tasks never touch the queue
manager — so a stale waiting session is reclaimed only when an operation
that runs the sweep is invoked on the queue. -/
theorem C8_sweep_on_processQueue_only :
    (∀ (now : Int) (s : QMState), Reachable s → ∀ k sess,
      mapGet (processQueue now s).1.sessions k = some sess →
      isExpiredWaiting now sess = false) ∧
    (∀ (now : Int) (s : QMState), Reachable s → ∀ k sess,
      mapGet (cleanupExpiredSessions now s).sessions k = some sess →
      isExpiredWaiting now sess = false) ∧
    (∀ (now : Int) (st : ServerState), (intervalTick now st).qm = st.qm) := by
  refine ⟨?_, ?_, fun now st => rfl⟩
  · intro now s hr k sess hk
    have hwf := reachable_wf hr
    rw [processQueue_eq hwf] at hk
    have hcwf : WF (cleanupSpec now s) := cleanupSpecGo_wf _ hwf
    cases hq : (cleanupSpec now s).queue with
    | nil =>
      simp only [promoteHead, hq] at hk
      exact cleanupSpec_noExpired s k sess hk
    | cons h rest =>
      have hh : h ∈ (cleanupSpec now s).queue := by
        rw [hq]; exact List.mem_cons_self _ _
      obtain ⟨sessh, hgets, _⟩ := hcwf.queueSub h hh
      simp only [promoteHead, hq, hgets] at hk
      by_cases hkh : k = h
      · subst hkh
        have : mapGet (setActiveSession now k sessh
            { cleanupSpec now s with queue := rest }).sessions k =
            some { sessh with status := SessionStatus.active, activatedAt := some now } :=
          mapGet_mapSet_self _ _ _
        rw [this] at hk
        cases hk
        exact isExpiredWaiting_false_of_active rfl
      · have : mapGet (setActiveSession now h sessh
            { cleanupSpec now s with queue := rest }).sessions k =
            mapGet (cleanupSpec now s).sessions k :=
          mapGet_mapSet_ne _ _ hkh
        rw [this] at hk
        exact cleanupSpec_noExpired s k sess hk
  · intro now s hr k sess hk
    have hwf := reachable_wf hr
    rw [cleanupExpiredSessions_eq hwf] at hk
    exact cleanupSpec_noExpired s k sess hk

/-- C8 witness: on the stale two-session state the sweep keeps only the
active session (provably not expired), and an interval tick is the identity
on the queue manager. -/
theorem C8_witness :
    isExpiredWaiting 700000
      { id := "a", fileInfo := sampleFile, joinedAt := 0
        status := SessionStatus.active, activatedAt := some 0 } = false ∧
    (intervalTick 700000 { qm := staleState, claimedCoins := [] }).qm = staleState :=
  ⟨C8_sweep_on_processQueue_only.2.1 700000 staleState
      (Reachable.step
        (Reachable.step Reachable.init (Step.join _ 0 "a" sampleFile (by decide)))
        (Step.join _ 1 "b" sampleFile (by decide)))
      "a" _ (by decide),
    C8_sweep_on_processQueue_only.2.2 700000 _⟩

/-! ## Device-bridge string facts -/

theorem jsStartsWith_coin (t : String) :
    jsStartsWith ("COIN:" ++ t) "COIN:" = true := by
  unfold jsStartsWith
  rw [String.data_append]
  rw [show ("COIN:".data.length) = ("COIN:".data).length from rfl]
  rw [List.take_left]
  simp

theorem jsSubstring_coin (t : String) : jsSubstring ("COIN:" ++ t) 5 = t := by
  unfold jsSubstring
  rw [String.data_append]
  rw [show (5 : Nat) = ("COIN:".data).length from rfl]
  rw [List.drop_left]

theorem coinValues_ne_zero {t : String} {v : Int} (h : coinValues t = some v) :
    v ≠ 0 := by
  unfold coinValues at h
  split_ifs at h <;> cases h <;> decide

/-- C6: a received line `COIN:<type>` dispatches to `handleCoinDetection`
with the trimmed type.  For a type in the denomination table, every
registered observer is invoked, in registration order, with
`(value, type)` — the invocation list is exactly the `map` over the
registered callbacks — and one observer's exception is caught individually,
so it neither suppresses the later invocations (every callback contributes
one invocation regardless of the others) nor escapes the handler (the
handler is a total function into `ArduinoMsg`).  For a type outside the
table, no observer is invoked and no error is raised. -/
theorem C6_coin_dispatch (callbacks : List CoinCallback) (t : String)
    (ht : jsTrim t = t) :
    handleArduinoData callbacks ("COIN:" ++ t) =
      .coin (handleCoinDetection callbacks t) ∧
    (∀ v, coinValues t = some v →
      handleCoinDetection callbacks t =
        callbacks.map (fun cb =>
          match cb.run v t with
          | .ok _ => { value := v, coinType := t, threw := false }
          | .error _ => { value := v, coinType := t, threw := true }) ∧
      (handleCoinDetection callbacks t).length = callbacks.length ∧
      (∀ inv ∈ handleCoinDetection callbacks t, inv.value = v ∧ inv.coinType = t)) ∧
    (coinValues t = none → handleCoinDetection callbacks t = []) := by
  refine ⟨?_, ?_, ?_⟩
  · unfold handleArduinoData
    rw [if_pos (jsStartsWith_coin t), jsSubstring_coin, ht]
  · intro v hv
    have hvne : v ≠ 0 := coinValues_ne_zero hv
    have hmap : handleCoinDetection callbacks t =
        callbacks.map (fun cb =>
          match cb.run v t with
          | .ok _ => { value := v, coinType := t, threw := false }
          | .error _ => { value := v, coinType := t, threw := true }) := by
      unfold handleCoinDetection
      simp only [hv]
      rw [if_pos hvne]
    refine ⟨hmap, ?_, ?_⟩
    · rw [hmap, List.length_map]
    · intro inv hinv
      rw [hmap] at hinv
      obtain ⟨cb, _, he⟩ := List.mem_map.1 hinv
      cases hrun : cb.run v t with
      | ok u =>
        rw [hrun] at he
        rw [← he]
        exact ⟨rfl, rfl⟩
      | error e =>
        rw [hrun] at he
        rw [← he]
        exact ⟨rfl, rfl⟩
  · intro hnone
    unfold handleCoinDetection
    simp only [hnone]

/-- C6 witness: with a throwing observer registered first, the line
`COIN:10` yields one invocation per observer, in order, with `(10, "10")`;
the line `COIN:99` yields no invocation. -/
theorem C6_witness :
    handleArduinoData [throwingObserver, quietObserver] ("COIN:" ++ "10") =
      .coin (handleCoinDetection [throwingObserver, quietObserver] "10") ∧
    handleCoinDetection [throwingObserver, quietObserver] "10" =
      [{ value := 10, coinType := "10", threw := true },
       { value := 10, coinType := "10", threw := false }] ∧
    handleArduinoData [throwingObserver, quietObserver] ("COIN:" ++ "99") =
      .coin (handleCoinDetection [throwingObserver, quietObserver] "99") ∧
    handleCoinDetection [throwingObserver, quietObserver] "99" = [] := by
  refine ⟨(C6_coin_dispatch [throwingObserver, quietObserver] "10" (by decide)).1,
    ?_,
    (C6_coin_dispatch [throwingObserver, quietObserver] "99" (by decide)).1,
    (C6_coin_dispatch [throwingObserver, quietObserver] "99" (by decide)).2.2 rfl⟩
  rw [((C6_coin_dispatch [throwingObserver, quietObserver] "10" (by decide)).2.1
    10 rfl).1]
  rfl

/-- C4 counterexample: in `staleState` (reachable by two joins: `a` active
with last activity 0, `b` waiting since 1) the timeout check fires for `a`
at 700000 with a non-empty waiting queue `["b"]`, yet NO waiting session
becomes active: the expiry sweep that `removeSession`'s re-entry into
`processQueue` runs first (lines 412-414, 550-560) deletes `b`, whose wait
of 699999 ms exceeds the 10-minute bound, so the queue is empty at
promotion time and the active slot is left `null`.  This refutes the
claim's "if the waiting queue is non-empty, exactly one waiting session
(the head of the queue) immediately becomes active". -/
theorem C4_counterexample :
    Reachable staleState ∧
    staleState.activeSession = some "a" ∧
    staleState.queue = ["b"] ∧
    sessionTimeout ≤ 700000 - (mapGet staleState.lastActivityTime "a").getD 0 ∧
    (checkSessionTimeout 700000 "a" staleState).2 = .removed ∧
    (checkSessionTimeout 700000 "a" staleState).1.activeSession = none ∧
    (checkSessionTimeout 700000 "a" staleState).1.queue = [] ∧
    mapGet (checkSessionTimeout 700000 "a" staleState).1.sessions "b" = none := by
  refine ⟨?_, by decide⟩
  exact Reachable.step
    (Reachable.step Reachable.init (Step.join _ 0 "a" sampleFile (by decide)))
    (Step.join _ 1 "b" sampleFile (by decide))

/-- C4 (amended): when the timeout check fires for the active session and
the time since its last recorded activity is at least the 90-second window,
the session is removed from the system entirely (session map, queue, active
slot); the queue then advances only after the expiry sweep that the
re-entered `processQueue` runs first: if the swept queue (`postRemovalSweep`)
is still non-empty exactly one session, its head, immediately becomes
active (all other surviving sessions untouched), while if the sweep leaves
the queue empty no session becomes active; when no waiting session has
outlived the 10-minute bound the swept queue is the original queue.  If the
last activity is more recent, the state is unchanged and the check re-arms
itself for exactly the remaining delta. -/
theorem C4_timeout (s : QMState) (now : Int) (sid : String)
    (hr : Reachable s) (hact : s.activeSession = some sid) :
    (sessionTimeout ≤ now - (mapGet s.lastActivityTime sid).getD 0 →
      (checkSessionTimeout now sid s).2 = .removed ∧
      mapGet (checkSessionTimeout now sid s).1.sessions sid = none ∧
      sid ∉ (checkSessionTimeout now sid s).1.queue ∧
      (checkSessionTimeout now sid s).1.activeSession ≠ some sid ∧
      ((postRemovalSweep now sid s).queue = [] →
        (checkSessionTimeout now sid s).1.activeSession = none) ∧
      (∀ h rest, (postRemovalSweep now sid s).queue = h :: rest →
        (checkSessionTimeout now sid s).1.activeSession = some h ∧
        (∃ sess, mapGet (postRemovalSweep now sid s).sessions h = some sess ∧
          sess.status = SessionStatus.waiting ∧
          mapGet (checkSessionTimeout now sid s).1.sessions h =
            some { sess with status := SessionStatus.active, activatedAt := some now }) ∧
        (∀ k, k ≠ h →
          mapGet (checkSessionTimeout now sid s).1.sessions k =
            mapGet (postRemovalSweep now sid s).sessions k) ∧
        (checkSessionTimeout now sid s).1.queue = rest) ∧
      (noExpiredWaiting now s → (postRemovalSweep now sid s).queue = s.queue)) ∧
    (now - (mapGet s.lastActivityTime sid).getD 0 < sessionTimeout →
      checkSessionTimeout now sid s =
        (s, .reschedule
          (sessionTimeout - (now - (mapGet s.lastActivityTime sid).getD 0)))) := by
  have hwf := reachable_wf hr
  have hne : ¬ s.activeSession ≠ some sid := by simp [hact]
  have hwa : (removeSessionCore sid s).2 = true :=
    (removeSessionCore_wasActive sid s).2 hact
  have hnotin : sid ∉ s.queue := hwf.active_not_in_queue hact
  have hqcore : (removeSessionCore sid s).1.queue = s.queue := by
    rw [removeSessionCore_queue, List.erase_of_not_mem hnotin]
  have hcwf : WF (removeSessionCore sid s).1 := removeSessionCore_wf hwf sid
  have hswf : WF (cleanupSpec now (removeSessionCore sid s).1) :=
    cleanupSpecGo_wf _ hcwf
  have hsweep : postRemovalSweep now sid s =
      cleanupSpec now (removeSessionCore sid s).1 := by
    unfold postRemovalSweep
    exact cleanupExpiredSessions_eq hcwf
  have hrs : removeSession now sid s =
      (promoteHead now (cleanupSpec now (removeSessionCore sid s).1)).1 := by
    rw [removeSession_eq hwf, if_pos hwa]
  have hnone_cs :
      mapGet (cleanupSpec now (removeSessionCore sid s).1).sessions sid = none := by
    cases hgs : mapGet (cleanupSpec now (removeSessionCore sid s).1).sessions sid with
    | none => rfl
    | some sess =>
      have h' := cleanupSpecGo_entries ((removeSessionCore sid s).1.sessions.map Prod.fst)
        (removeSessionCore sid s).1 sid sess hgs
      rw [removeSessionCore_sessions, mapGet_mapDelete_self] at h'
      cases h'
  have hsub : List.Sublist (cleanupSpec now (removeSessionCore sid s).1).queue s.queue := by
    have h1 := @cleanupSpecGo_queue now ((removeSessionCore sid s).1.sessions.map Prod.fst)
      (removeSessionCore sid s).1
    rw [hqcore] at h1
    exact h1
  have hnxq : noExpiredWaiting now s →
      (cleanupSpec now (removeSessionCore sid s).1).queue = s.queue := by
    intro hnx
    have hnx1 : ∀ p ∈ (removeSessionCore sid s).1.sessions,
        isExpiredWaiting now p.2 = false := by
      intro p hp
      rw [removeSessionCore_sessions] at hp
      exact hnx p (mem_mapDelete.1 hp).1
    have hid : cleanupSpec now (removeSessionCore sid s).1 = (removeSessionCore sid s).1 :=
      cleanupSpecGo_id _ _ hnx1
    rw [hid, hqcore]
  constructor
  · intro hto
    have hcst : checkSessionTimeout now sid s = (removeSession now sid s, .removed) := by
      unfold checkSessionTimeout
      rw [if_neg hne]
      dsimp only
      rw [if_pos hto]
    rw [hcst]
    dsimp only
    refine ⟨rfl, ?_⟩
    rw [hrs, hsweep]
    cases hcq : (cleanupSpec now (removeSessionCore sid s).1).queue with
    | nil =>
      simp only [promoteHead, hcq]
      refine ⟨hnone_cs, ?_, ?_, ?_, ?_, ?_⟩
      · simp
      · simp
      · intro _
        trivial
      · intro h rest hcons
        exact absurd hcons (by simp)
      · intro hnx
        rw [← hcq]
        exact hnxq hnx
    | cons h rest =>
      have hhcs : h ∈ (cleanupSpec now (removeSessionCore sid s).1).queue := by
        rw [hcq]
        exact List.mem_cons_self _ _
      have hhq : h ∈ s.queue := hsub.subset hhcs
      have hhsid : h ≠ sid := fun he => hnotin (he ▸ hhq)
      have hsidh : sid ≠ h := fun he => hhsid he.symm
      obtain ⟨sess, hgh, hwh⟩ := hswf.queueSub h hhcs
      simp only [promoteHead, hcq, hgh]
      refine ⟨?_, ?_, ?_, ?_, ?_, ?_⟩
      · show mapGet (mapSet _ _ _) sid = none
        rw [mapGet_mapSet_ne _ _ hsidh]
        exact hnone_cs
      · show sid ∉ rest
        intro hmem
        exact hnotin (hsub.subset (by rw [hcq]; exact List.mem_cons_of_mem _ hmem))
      · show some h ≠ some sid
        simp [hhsid]
      · intro hcons
        exact absurd hcons (by simp)
      · intro h' rest' hcons
        cases hcons
        refine ⟨rfl, ⟨sess, hgh, hwh, ?_⟩, ?_, rfl⟩
        · exact mapGet_mapSet_self _ _ _
        · intro k hkh
          show mapGet (mapSet _ _ _) k =
            mapGet (cleanupSpec now (removeSessionCore sid s).1).sessions k
          rw [mapGet_mapSet_ne _ _ hkh]
      · intro hnx
        rw [← hcq]
        exact hnxq hnx
  · intro hlt
    unfold checkSessionTimeout
    rw [if_neg hne]
    dsimp only
    rw [if_neg (by omega)]

/-- C4 witness: `a` (active since 1000, no heartbeat) and `b` (waiting,
joined at 2000, well inside the 10-minute bound at 91001, so the sweep
keeps it).  At 91001 the check removes `a` and promotes `b`; at 50000 it
leaves the state alone and re-arms for the remaining 41000 ms. -/
theorem C4_witness :
    (checkSessionTimeout 91001 "a" twoSessionState).2 = .removed ∧
    mapGet (checkSessionTimeout 91001 "a" twoSessionState).1.sessions "a" = none ∧
    (checkSessionTimeout 91001 "a" twoSessionState).1.activeSession = some "b" ∧
    (checkSessionTimeout 91001 "a" twoSessionState).1.queue = [] ∧
    (postRemovalSweep 91001 "a" twoSessionState).queue = twoSessionState.queue ∧
    checkSessionTimeout 50000 "a" twoSessionState =
      (twoSessionState, .reschedule
        (sessionTimeout -
          (50000 - (mapGet twoSessionState.lastActivityTime "a").getD 0))) := by
  have hreach : Reachable twoSessionState :=
    Reachable.step
      (Reachable.step Reachable.init (Step.join _ 1000 "a" sampleFile (by decide)))
      (Step.join _ 2000 "b" sampleFile (by decide))
  have h1 := (C4_timeout twoSessionState 91001 "a" hreach (by decide)).1 (by decide)
  have h2 := (C4_timeout twoSessionState 50000 "a" hreach (by decide)).2 (by decide)
  have hb := h1.2.2.2.2.2.1 "b" [] (by decide)
  have hq := h1.2.2.2.2.2.2 (by unfold noExpiredWaiting; decide)
  exact ⟨h1.1, h1.2.1, hb.1, hb.2.2.2, hq, h2⟩

/-! ## Relative order in the queue -/

theorem isBefore_mem {A B : String} {q : List String} (h : isBefore A B q) :
    A ∈ q ∧ B ∈ q := by
  obtain ⟨l1, l2, l3, he⟩ := h
  subst he
  constructor <;> simp

theorem isBefore_ne {A B : String} {q : List String} (hnd : q.Nodup)
    (h : isBefore A B q) : A ≠ B := by
  obtain ⟨l1, l2, l3, he⟩ := h
  subst he
  have h1 : (A :: (l2 ++ (B :: l3))).Nodup := hnd.of_append_right
  have h2 : A ∉ l2 ++ (B :: l3) := (List.nodup_cons.1 h1).1
  intro heq
  exact h2 (List.mem_append.2 (Or.inr (heq ▸ List.mem_cons_self _ _)))

theorem isBefore_head_absurd {A B : String} {rest : List String}
    (hnd : (B :: rest).Nodup) (hAB : isBefore A B (B :: rest)) (hne : A ≠ B) :
    False := by
  obtain ⟨l1, l2, l3, he⟩ := hAB
  cases l1 with
  | nil =>
    simp only [List.nil_append] at he
    injection he with h1 _
    exact hne h1.symm
  | cons y l1' =>
    rw [List.cons_append] at he
    injection he with h1 h2
    have : B ∈ rest := by
      rw [h2]
      simp
    exact (List.nodup_cons.1 hnd).1 this

/-- Relative order of surviving entries is preserved by sublists of a
duplicate-free list. -/
theorem sublist_isBefore {A B : String} :
    ∀ {q' q : List String}, List.Sublist q' q → q.Nodup → isBefore A B q →
      A ∈ q' → B ∈ q' → isBefore A B q' := by
  intro q' q h
  induction h with
  | slnil =>
    intro _ _ hA _
    simp at hA
  | cons x h ih =>
    intro hnd hAB hA hB
    obtain ⟨l1, l2, l3, he⟩ := hAB
    cases l1 with
    | nil =>
      simp only [List.nil_append] at he
      injection he with h1 h2
      rw [h1, h2] at hnd
      have hA2 : A ∈ l2 ++ (B :: l3) := h2 ▸ h.subset hA
      exact absurd hA2 (List.nodup_cons.1 hnd).1
    | cons y l1'' =>
      rw [List.cons_append] at he
      injection he with h1 h2
      exact ih (List.nodup_cons.1 hnd).2 ⟨l1'', l2, l3, h2⟩ hA hB
  | cons₂ x h ih =>
    rename_i t q0
    intro hnd hAB hA hB
    obtain ⟨l1, l2, l3, he⟩ := hAB
    cases l1 with
    | nil =>
      simp only [List.nil_append] at he
      injection he with h1 h2
      rw [h1, h2] at hnd
      have hne : A ≠ B := by
        have hno : A ∉ l2 ++ (B :: l3) := (List.nodup_cons.1 hnd).1
        intro heq
        exact hno (List.mem_append.2 (Or.inr (heq ▸ List.mem_cons_self _ _)))
      have hBt : B ∈ t := by
        rcases List.mem_cons.1 hB with hBx | hBt
        · exact absurd (hBx.trans h1) (fun heq => hne heq.symm)
        · exact hBt
      obtain ⟨m1, m2, hm⟩ := List.append_of_mem hBt
      refine ⟨[], m1, m2, ?_⟩
      rw [List.nil_append, hm, h1]
    | cons y l1'' =>
      rw [List.cons_append] at he
      injection he with h1 h2
      have hnd0 := List.nodup_cons.1 hnd
      have hAq0 : A ∈ q0 := by rw [h2]; simp
      have hBq0 : B ∈ q0 := by rw [h2]; simp
      have hAt : A ∈ t := by
        rcases List.mem_cons.1 hA with hAx | hAt
        · exact absurd (hAx ▸ hAq0) hnd0.1
        · exact hAt
      have hBt : B ∈ t := by
        rcases List.mem_cons.1 hB with hBx | hBt
        · exact absurd (hBx ▸ hBq0) hnd0.1
        · exact hBt
      obtain ⟨m1, m2, m3, hm⟩ := ih hnd0.2 ⟨l1'', l2, l3, h2⟩ hAt hBt
      exact ⟨x :: m1, m2, m3, by rw [hm, List.cons_append]⟩

theorem promoteHead_snd {now : Int} {t : QMState} (hwf : WF t) :
    (promoteHead now t).2 = t.queue.head? := by
  cases hq : t.queue with
  | nil => simp [promoteHead, hq]
  | cons h rest =>
    have hh : h ∈ t.queue := by rw [hq]; exact List.mem_cons_self _ _
    obtain ⟨sess, hgets, _⟩ := hwf.queueSub h hh
    simp [promoteHead, hq, hgets]

/-- The post-removal promotion never hands the slot to a session that still
has an earlier-joined session ahead of it in the queue. -/
theorem removeSession_no_overtake {now : Int} {sid A B : String} {s : QMState}
    (hwf : WF s) (hAB : isBefore A B s.queue)
    (hA : A ∈ (removeSession now sid s).queue) :
    (removeSession now sid s).activeSession ≠ some B := by
  have hBq : B ∈ s.queue := (isBefore_mem hAB).2
  obtain ⟨sessB, hgB, hwB⟩ := hwf.queueSub B hBq
  have hBact : s.activeSession ≠ some B := hwf.not_active_of_waiting hgB hwB
  rw [removeSession_eq hwf] at hA ⊢
  by_cases hwa : (removeSessionCore sid s).2 = true
  · rw [if_pos hwa] at hA ⊢
    have hact : s.activeSession = some sid := (removeSessionCore_wasActive sid s).1 hwa
    have hnotin : sid ∉ s.queue := hwf.active_not_in_queue hact
    have hqcore : (removeSessionCore sid s).1.queue = s.queue := by
      rw [removeSessionCore_queue, List.erase_of_not_mem hnotin]
    have hcwf : WF (cleanupSpec now (removeSessionCore sid s).1) :=
      cleanupSpecGo_wf _ (removeSessionCore_wf hwf sid)
    have hsub : List.Sublist (cleanupSpec now (removeSessionCore sid s).1).queue s.queue := by
      rw [← hqcore]
      exact cleanupSpecGo_queue _ _
    cases hcq : (cleanupSpec now (removeSessionCore sid s).1).queue with
    | nil =>
      simp only [promoteHead, hcq]
      simp
    | cons h rest =>
      have hh : h ∈ (cleanupSpec now (removeSessionCore sid s).1).queue := by
        rw [hcq]; exact List.mem_cons_self _ _
      obtain ⟨sessh, hgets, _⟩ := hcwf.queueSub h hh
      simp only [promoteHead, hcq, hgets] at hA ⊢
      intro hBe
      have hhB : h = B := by
        have hse : (some h : Option String) = some B := hBe
        exact Option.some.inj hse
      have hArest : A ∈ rest := hA
      have hAcs : A ∈ (cleanupSpec now (removeSessionCore sid s).1).queue := by
        rw [hcq]
        exact List.mem_cons_of_mem _ hArest
      have hBcs : B ∈ (cleanupSpec now (removeSessionCore sid s).1).queue := by
        rw [hcq, hhB]
        exact List.mem_cons_self _ _
      have hne : A ≠ B := isBefore_ne hwf.queueNodup hAB
      have hAB' : isBefore A B (cleanupSpec now (removeSessionCore sid s).1).queue :=
        sublist_isBefore hsub hwf.queueNodup hAB hAcs hBcs
      rw [hcq, hhB] at hAB'
      have hndq : (B :: rest).Nodup := by
        have hnq := hcwf.queueNodup
        rw [hcq, hhB] at hnq
        exact hnq
      exact isBefore_head_absurd hndq hAB' hne
  · rw [if_neg hwa] at hA ⊢
    rw [removeSessionCore_active,
      if_neg (fun hc => hwa ((removeSessionCore_wasActive sid s).2 hc))]
    exact hBact

/-- C3: the three code-level facts behind the FIFO guarantee.  (a) A fresh
join while another session is active (and the queue has room) appends at the
tail, so queue order is arrival order.  (b) Every promotion performed by
`processQueue` takes exactly the head of the waiting queue as it stands
after the expiry sweep that `processQueue` itself begins with.  (c) No
single operation promotes a session `B` while an earlier-queued session `A`
is still waiting: whenever `A` precedes `B` in the queue and `A` is still
queued afterwards, the new active session is not `B`.  Together these give:
if `A` joins strictly before `B` and both wait, `A` is promoted no later
than `B`. -/
theorem C3_fifo (s : QMState) (hr : Reachable s) :
    (∀ (now : Int) (sid : String) (fi : FileInfo),
      mapGet s.sessions sid = none → s.activeSession ≠ none →
      s.queue.length < MAX_QUEUE_SIZE →
      (joinQueue now sid fi s).1.queue = s.queue ++ [sid]) ∧
    (∀ now : Int,
      (processQueue now s).2 = (cleanupExpiredSessions now s).queue.head?) ∧
    (∀ (s' : QMState) (A B : String), Step s s' → isBefore A B s.queue →
      A ∈ s'.queue → s'.activeSession ≠ some B) := by
  have hwf := reachable_wf hr
  refine ⟨?_, ?_, ?_⟩
  · intro now sid fi hget hact hlen
    have h1 : mapHas s.sessions sid = false := mapHas_false.2 hget
    have htr : truthyId s.activeSession = true := hwf.truthy_active.2 hact
    have hnf : ¬ (s.queue.length ≥ MAX_QUEUE_SIZE ∧ truthyId s.activeSession = true) := by
      intro hc
      omega
    have hnq : sid ∉ s.queue := by
      intro hq
      obtain ⟨sess, hg, _⟩ := hwf.queueSub sid hq
      rw [hget] at hg
      cases hg
    rw [joinQueue_append h1 hnf htr hnq]
  · intro now
    rw [processQueue_eq hwf,
      show (promoteHead now (cleanupSpec now s)).2 = (cleanupSpec now s).queue.head? from
        promoteHead_snd (cleanupSpecGo_wf _ hwf),
      cleanupExpiredSessions_eq hwf]
  · intro s' A B hst hAB hA
    have hBq : B ∈ s.queue := (isBefore_mem hAB).2
    obtain ⟨sessB, hgB, hwB⟩ := hwf.queueSub B hBq
    have hBact : s.activeSession ≠ some B := hwf.not_active_of_waiting hgB hwB
    have hBhas : mapHas s.sessions B = true := mapHas_iff.2 (by simp [hgB])
    cases hst with
    | join now sid fi hne =>
      by_cases h1 : mapHas s.sessions sid = true
      · rw [joinQueue_known h1]
        exact hBact
      · have h1' : mapHas s.sessions sid = false := by simpa using h1
        have hsidB : sid ≠ B := by
          intro he
          rw [he, hBhas] at h1'
          cases h1'
        by_cases hnf : s.queue.length ≥ MAX_QUEUE_SIZE ∧ truthyId s.activeSession = true
        · rw [joinQueue_full h1' hnf.1 hnf.2]
          exact hBact
        · by_cases htr : truthyId s.activeSession = true
          · have hnq : sid ∉ s.queue := by
              intro hq
              obtain ⟨sess, hg, _⟩ := hwf.queueSub sid hq
              rw [mapHas_false.1 h1'] at hg
              cases hg
            rw [joinQueue_append h1' hnf htr hnq]
            exact hBact
          · rw [joinQueue_activate h1' hnf (by simpa using htr)]
            show some sid ≠ some B
            simp [hsidB]
    | heartbeat now sid =>
      rw [updateActivity_active]
      exact hBact
    | complete now sid hne =>
      exact removeSession_no_overtake (WF_update_completed hwf _) hAB hA
    | leave now sid hne =>
      exact removeSession_no_overtake hwf hAB hA
    | timeoutCheck now sid =>
      unfold checkSessionTimeout at hA ⊢
      by_cases h : s.activeSession ≠ some sid
      · rw [if_pos h] at hA ⊢
        exact hBact
      · rw [if_neg h] at hA ⊢
        dsimp only at hA ⊢
        by_cases ht : now - (mapGet s.lastActivityTime sid).getD 0 ≥ sessionTimeout
        · rw [if_pos ht] at hA ⊢
          exact removeSession_no_overtake hwf hAB hA
        · rw [if_neg ht] at hA ⊢
          exact hBact
    | cleanup now =>
      rw [cleanupExpiredSessions_eq hwf,
        show (cleanupSpec now s).activeSession = s.activeSession from
          cleanupSpecGo_active _ hwf]
      exact hBact

/-- C3 witness: with `a` active and the queue `[b, c]`, a fresh join appends
at the tail, the next promotion would take `b` (the head), and a heartbeat
step never activates `c` while `b` still waits. -/
theorem C3_witness :
    (joinQueue 4000 "d" sampleFile threeSessionState).1.queue =
      threeSessionState.queue ++ ["d"] ∧
    (processQueue 5000 threeSessionState).2 =
      (cleanupExpiredSessions 5000 threeSessionState).queue.head? ∧
    (updateActivity 5000 "a" threeSessionState).activeSession ≠ some "c" := by
  have hreach : Reachable threeSessionState :=
    Reachable.step
      (Reachable.step
        (Reachable.step Reachable.init (Step.join _ 1000 "a" sampleFile (by decide)))
        (Step.join _ 2000 "b" sampleFile (by decide)))
      (Step.join _ 3000 "c" sampleFile (by decide))
  have h := C3_fifo threeSessionState hreach
  refine ⟨h.1 4000 "d" sampleFile (by decide) (by decide) (by decide),
    h.2.1 5000, ?_⟩
  refine h.2.2 (updateActivity 5000 "a" threeSessionState) "b" "c"
    (Step.heartbeat _ 5000 "a") ⟨[], [], [], by decide⟩ (by decide)

end PisoPrinter
